import Mathlib

/-!
Verification of the NebulaCrypt DCKP-ES pipeline
(`apps/encryption/services/dckp_es.py`, `pixel_processor.py`,
`encryption_orchestrator.py`) against its natural-language specification.

Byte buffers are modelled as `List Nat` whose entries are the byte values;
`astype(np.uint8)` is modelled as reduction modulo 256.  Python float
arithmetic on the chaos seed and the logistic map is modelled by exact
rational arithmetic (`ℚ`); the claims about those values do not depend on
sub-ulp rounding, except where explicitly discussed at a boundary value.
-/

namespace NebulaCrypt

/-! ### Byte-level helpers -/

/-- Model of `ndarray.astype(np.uint8)` on a flat buffer: every entry is
reduced modulo 256. -/
def toUint8 (l : List Nat) : List Nat := l.map (· % 256)

/-- Model of `np.bitwise_xor` on two equal-length flat buffers. -/
def xorBytes (a b : List Nat) : List Nat := List.zipWith (· ^^^ ·) a b

/-! ### The diffusion loops of `DCKPESEncryptor.encrypt_pixels` /
`decrypt_pixels` (dckp_es.py lines 136-138 and 154-157), modelled as
in-place index loops over the buffer. -/

/-- One iteration of the in-place diffusion loop body
`buf[i] = buf[i] ^ buf[i-1]`. -/
def diffuseStep (a : List Nat) (i : Nat) : List Nat :=
  a.set i ((a.getD i 0) ^^^ (a.getD (i - 1) 0))

/-- The forward diffusion loop of `encrypt_pixels`:
`for i in range(1, len(encrypted)): encrypted[i] ^= encrypted[i-1]`. -/
def diffuse (a : List Nat) : List Nat :=
  (List.range' 1 (a.length - 1)).foldl diffuseStep a

/-- The reverse diffusion loop of `decrypt_pixels`:
`for i in range(len(decrypted)-1, 0, -1): decrypted[i] ^= decrypted[i-1]`,
i.e. the same loop body executed at indices `n-1, n-2, …, 1`. -/
def undiffuse (a : List Nat) : List Nat :=
  ((List.range' 1 (a.length - 1)).reverse).foldl diffuseStep a

/-- The specification's recurrence `out[i] = in[i] XOR out[i-1]` with the
previous output carried along (`out[0] = in[0]` since the carry starts
at `0`). -/
def diffuseSpecAux (prev : Nat) : List Nat → List Nat
  | [] => []
  | x :: xs => (prev ^^^ x) :: diffuseSpecAux (prev ^^^ x) xs

/-- The specification's forward diffusion pass:
`out[0] = in[0]`, `out[i] = in[i] XOR out[i-1]` for `i ≥ 1`. -/
def diffuseSpec (l : List Nat) : List Nat := diffuseSpecAux 0 l

/-- The specification's reverse diffusion pass:
`dec[0] = enc[0]`, `dec[i] = enc[i] XOR enc[i-1]` for `i ≥ 1`. -/
def undiffuseSpec (l : List Nat) : List Nat := List.zipWith (· ^^^ ·) l (0 :: l)

/-- The keystream-parametrised cipher core of `encrypt_pixels`: cast the
flat buffer to uint8, XOR with the keystream, then run the in-place
diffusion loop. -/
def cipherEncrypt (data keystream : List Nat) : List Nat :=
  diffuse (xorBytes (toUint8 data) keystream)

/-- The keystream-parametrised cipher core of `decrypt_pixels`: cast to
uint8, run the reverse diffusion loop, then XOR with the keystream. -/
def cipherDecrypt (data keystream : List Nat) : List Nat :=
  xorBytes (undiffuse (toUint8 data)) keystream

/-! ### Basic lemmas about the diffusion passes -/

theorem diffuseSpecAux_length (prev : Nat) (l : List Nat) :
    (diffuseSpecAux prev l).length = l.length := by
  induction l generalizing prev with
  | nil => rfl
  | cons x xs ih => simp [diffuseSpecAux, ih]

theorem getD_append_lt {α : Type} (l t : List α) (d : α) (i : Nat)
    (h : i < l.length) : (l ++ t).getD i d = l.getD i d := by
  induction l generalizing i with
  | nil => simp at h
  | cons x xs ih =>
    cases i with
    | zero => rfl
    | succ j =>
      simp only [List.cons_append, List.getD_cons_succ]
      exact ih j (by simpa using Nat.lt_of_succ_lt_succ h)

theorem getD_append_len {α : Type} (l : List α) (y : α) (t : List α) (d : α) :
    (l ++ y :: t).getD l.length d = y := by
  induction l with
  | nil => rfl
  | cons x xs ih => simpa using ih

theorem set_append_len {α : Type} (l : List α) (y : α) (t : List α) (b : α) :
    (l ++ y :: t).set l.length b = l ++ b :: t := by
  induction l with
  | nil => rfl
  | cons x xs ih => simp [ih]

/-- Invariant of the forward in-place loop: once the prefix up to position
`pre.length` is final (last final value `prev`), folding the loop body over
the remaining indices produces the specification recurrence on the
remaining suffix. -/
theorem diffuse_loop_invariant (suf : List Nat) :
    ∀ (pre : List Nat) (prev : Nat),
    (List.range' (pre.length + 1) suf.length).foldl diffuseStep
        (pre ++ prev :: suf)
      = pre ++ prev :: diffuseSpecAux prev suf := by
  induction suf with
  | nil => intro pre prev; rfl
  | cons x xs ih =>
    intro pre prev
    have hstep :
        diffuseStep (pre ++ prev :: x :: xs) (pre.length + 1)
          = (pre ++ [prev]) ++ (prev ^^^ x) :: xs := by
      have h1 : (pre ++ prev :: x :: xs).getD (pre.length + 1) 0 = x := by
        have := getD_append_len (pre ++ [prev]) x xs 0
        simpa [List.append_assoc] using this
      have h2 : (pre ++ prev :: x :: xs).getD (pre.length + 1 - 1) 0 = prev := by
        simpa using getD_append_len pre prev (x :: xs) 0
      have h3 : (pre ++ prev :: x :: xs).set (pre.length + 1) (prev ^^^ x)
          = (pre ++ [prev]) ++ (prev ^^^ x) :: xs := by
        have := set_append_len (pre ++ [prev]) x xs (prev ^^^ x)
        simp only [List.append_assoc] at this; simp [this]
      simp only [diffuseStep, h1, h2, Nat.xor_comm x prev, h3]
    have hrange : List.range' (pre.length + 1) (x :: xs).length
        = (pre.length + 1) :: List.range' (pre.length + 2) xs.length := by
      simp [List.range'_succ]
    rw [hrange]
    simp only [List.foldl_cons, hstep]
    have := ih (pre ++ [prev]) (prev ^^^ x)
    simp only [List.length_append, List.length_cons, List.length_nil] at this ⊢
    simpa [List.append_assoc, diffuseSpecAux] using this

/-- The in-place forward loop of `encrypt_pixels` computes exactly the
specification's forward diffusion pass. -/
theorem diffuse_eq_diffuseSpec (l : List Nat) : diffuse l = diffuseSpec l := by
  cases l with
  | nil => rfl
  | cons x xs =>
    have := diffuse_loop_invariant xs [] x
    simp only [List.length_nil, List.nil_append] at this
    simp only [diffuse, List.length_cons, Nat.add_sub_cancel, this,
      diffuseSpec, diffuseSpecAux, Nat.zero_xor]

theorem getD_append_len_succ {α : Type} (l : List α) (y z : α) (t : List α)
    (d : α) : (l ++ y :: z :: t).getD (l.length + 1) d = z := by
  induction l with
  | nil => rfl
  | cons a as ih => simpa using ih

theorem set_append_len_succ {α : Type} (l : List α) (y z : α) (t : List α)
    (b : α) : (l ++ y :: z :: t).set (l.length + 1) b = l ++ y :: b :: t := by
  induction l with
  | nil => rfl
  | cons a as ih => simp [ih]

/-- The intermediate state of the reverse loop: positions `≥ j` already hold
the final value `orig[i] XOR orig[i-1]`, positions `< j` are untouched. -/
def revState (orig : List Nat) (j : Nat) : List Nat :=
  orig.take j ++ List.zipWith (· ^^^ ·) (orig.drop j) (orig.drop (j - 1))

theorem revState_full (orig : List Nat) : revState orig orig.length = orig := by
  simp [revState]

/-- One step of the reverse loop at index `j+1` moves the frontier from
`j+2` down to `j+1`. -/
theorem revState_step (orig : List Nat) (j : Nat)
    (h : j + 1 < orig.length) :
    diffuseStep (revState orig (j + 2)) (j + 1) = revState orig (j + 1) := by
  obtain ⟨b, l₁, hd1⟩ : ∃ b l₁, orig.drop j = b :: l₁ := by
    cases hdj : orig.drop j with
    | nil =>
      exfalso
      have := List.drop_eq_nil_iff.mp hdj
      omega
    | cons b l₁ => exact ⟨b, l₁, rfl⟩
  obtain ⟨c, rest, hd2⟩ : ∃ c rest, l₁ = c :: rest := by
    cases hl₁ : l₁ with
    | nil =>
      exfalso
      have : (orig.drop j).length = orig.length - j := by simp
      rw [hd1, hl₁] at this
      simp at this
      omega
    | cons c rest => exact ⟨c, rest, rfl⟩
  subst hd2
  have hdrop1 : orig.drop (j + 1) = c :: rest := by
    have : orig.drop (j + 1) = (orig.drop j).drop 1 := by
      rw [List.drop_drop]
    rw [this, hd1]
    rfl
  have hdrop2 : orig.drop (j + 2) = rest := by
    have : orig.drop (j + 2) = (orig.drop j).drop 2 := by
      rw [List.drop_drop]
    rw [this, hd1]
    rfl
  have htakej : (orig.take j).length = j := by
    simp
    omega
  have htake : orig.take (j + 2) = orig.take j ++ [b, c] := by
    have : orig.take (j + 2) = orig.take j ++ (orig.drop j).take 2 := by
      rw [← List.take_add]
    rw [this, hd1]
    rfl
  have htake1 : orig.take (j + 1) = orig.take j ++ [b] := by
    have : orig.take (j + 1) = orig.take j ++ (orig.drop j).take 1 := by
      rw [← List.take_add]
    rw [this, hd1]
    rfl
  have hsucc : j + 2 - 1 = j + 1 := rfl
  rw [revState, hsucc, hdrop2, hdrop1, htake]
  have hassoc :
      orig.take j ++ [b, c] ++ List.zipWith (· ^^^ ·) rest (c :: rest)
        = orig.take j ++ b :: c :: List.zipWith (· ^^^ ·) rest (c :: rest) := by
    simp
  rw [hassoc, diffuseStep]
  have hg1 : (orig.take j ++ b :: c :: List.zipWith (· ^^^ ·) rest (c :: rest)).getD
      (j + 1) 0 = c := by
    have := getD_append_len_succ (orig.take j) b c
      (List.zipWith (· ^^^ ·) rest (c :: rest)) 0
    rwa [htakej] at this
  have hg2 : (orig.take j ++ b :: c :: List.zipWith (· ^^^ ·) rest (c :: rest)).getD
      (j + 1 - 1) 0 = b := by
    have := getD_append_len (orig.take j) b
      (c :: List.zipWith (· ^^^ ·) rest (c :: rest)) 0
    rw [htakej] at this
    simpa using this
  have hset : (orig.take j ++ b :: c :: List.zipWith (· ^^^ ·) rest (c :: rest)).set
      (j + 1) (c ^^^ b) = orig.take j ++ b :: (c ^^^ b) ::
        List.zipWith (· ^^^ ·) rest (c :: rest) := by
    have := set_append_len_succ (orig.take j) b c
      (List.zipWith (· ^^^ ·) rest (c :: rest)) (c ^^^ b)
    rwa [htakej] at this
  rw [hg1, hg2, hset, revState, htake1, hdrop1]
  simp [hd1]

/-- Invariant of the reverse in-place loop: folding the loop body over the
`k` highest indices (in descending order) produces `revState` with frontier
`orig.length - k`. -/
theorem undiffuse_loop_invariant (orig : List Nat) :
    ∀ k, k + 1 ≤ orig.length →
    ((List.range' (orig.length - k) k).reverse).foldl diffuseStep orig
      = revState orig (orig.length - k) := by
  intro k
  induction k with
  | zero =>
    intro _
    simpa using (revState_full orig).symm
  | succ k ih =>
    intro h
    have hlt : orig.length - (k + 1) + 1 < orig.length + 1 := by omega
    have hrange : List.range' (orig.length - (k + 1)) (k + 1)
        = (orig.length - (k + 1)) :: List.range' (orig.length - k) k := by
      have : orig.length - (k + 1) + 1 = orig.length - k := by omega
      rw [List.range'_succ, this]
    rw [hrange]
    simp only [List.reverse_cons, List.foldl_append, List.foldl_cons,
      List.foldl_nil]
    rw [ih (by omega)]
    obtain ⟨j, hj⟩ : ∃ j, orig.length - (k + 1) = j + 1 ∨
        (orig.length - (k + 1) = 0 ∧ j = 0) := ⟨orig.length - (k + 2), by omega⟩
    rcases hj with hj | ⟨hj, _⟩
    · have hk : orig.length - k = j + 2 := by omega
      rw [hk, hj]
      exact revState_step orig j (by omega)
    · omega

/-- The in-place reverse loop of `decrypt_pixels` computes exactly the
specification's reverse diffusion pass. -/
theorem undiffuse_eq_undiffuseSpec (l : List Nat) :
    undiffuse l = undiffuseSpec l := by
  cases l with
  | nil => rfl
  | cons x xs =>
    have h := undiffuse_loop_invariant (x :: xs) xs.length (by simp)
    have hlen : (x :: xs).length - xs.length = 1 := by simp
    rw [hlen] at h
    have h2 : (x :: xs).length - 1 = xs.length := by simp
    rw [undiffuse, h2, h, revState]
    simp [undiffuseSpec, Nat.xor_zero]

/-- Applying the reverse recurrence to the forward recurrence output (with
matching carry) recovers the input. -/
theorem zip_xor_diffuseSpecAux (p : Nat) (l : List Nat) :
    List.zipWith (· ^^^ ·) (diffuseSpecAux p l) (p :: diffuseSpecAux p l) = l := by
  induction l generalizing p with
  | nil => rfl
  | cons x xs ih =>
    simpa [diffuseSpecAux, Nat.xor_comm p x, Nat.xor_assoc, Nat.xor_self]
      using ih (p ^^^ x)

/-- `undiffuseSpec ∘ diffuseSpec = id`. -/
theorem undiffuseSpec_diffuseSpec (l : List Nat) :
    undiffuseSpec (diffuseSpec l) = l := by
  simpa [undiffuseSpec, diffuseSpec] using zip_xor_diffuseSpecAux 0 l

/-- XOR with the same keystream twice is the identity (equal lengths). -/
theorem xorBytes_xorBytes (a b : List Nat) (h : b.length = a.length) :
    xorBytes (xorBytes a b) b = a := by
  induction a generalizing b with
  | nil => cases b <;> simp [xorBytes]
  | cons x xs ih =>
    cases b with
    | nil => simp at h
    | cons y ys =>
      simp only [xorBytes, List.zipWith_cons_cons, Nat.xor_assoc,
        Nat.xor_self, Nat.xor_zero]
      exact congrArg _ (ih ys (by simpa using h))

theorem toUint8_eq_self (l : List Nat) (h : ∀ b ∈ l, b < 256) :
    toUint8 l = l := by
  induction l with
  | nil => rfl
  | cons x xs ih =>
    have hx : x % 256 = x := Nat.mod_eq_of_lt (h x (by simp))
    simp only [toUint8, List.map_cons, hx]
    exact congrArg _ (ih fun b hb => h b (List.mem_cons_of_mem _ hb))

theorem xor_lt_256 {a b : Nat} (ha : a < 256) (hb : b < 256) :
    a ^^^ b < 256 := Nat.xor_lt_two_pow (n := 8) ha hb

theorem xorBytes_mem_lt (a b : List Nat) (ha : ∀ x ∈ a, x < 256)
    (hb : ∀ x ∈ b, x < 256) : ∀ x ∈ xorBytes a b, x < 256 := by
  induction a generalizing b with
  | nil => simp [xorBytes]
  | cons x xs ih =>
    cases b with
    | nil => simp [xorBytes]
    | cons y ys =>
      intro z hz
      simp only [xorBytes, List.zipWith_cons_cons, List.mem_cons] at hz
      rcases hz with hz | hz
      · exact hz ▸ xor_lt_256 (ha x (by simp)) (hb y (by simp))
      · exact ih ys (fun u hu => ha u (List.mem_cons_of_mem _ hu))
          (fun u hu => hb u (List.mem_cons_of_mem _ hu)) z hz

theorem diffuseSpecAux_mem_lt (p : Nat) (l : List Nat) (hp : p < 256)
    (hl : ∀ x ∈ l, x < 256) : ∀ x ∈ diffuseSpecAux p l, x < 256 := by
  induction l generalizing p with
  | nil => simp [diffuseSpecAux]
  | cons x xs ih =>
    intro z hz
    simp only [diffuseSpecAux, List.mem_cons] at hz
    rcases hz with hz | hz
    · exact hz ▸ xor_lt_256 hp (hl x (by simp))
    · exact ih (p ^^^ x) (xor_lt_256 hp (hl x (by simp)))
        (fun u hu => hl u (List.mem_cons_of_mem _ hu)) z hz

/-- Pointwise form of the forward recurrence: every output entry is the
corresponding input entry XORed with the preceding output entry (with the
running carry `p` prepended). -/
theorem diffuseSpecAux_getD (l : List Nat) :
    ∀ (p i : Nat), i < l.length →
    (diffuseSpecAux p l).getD i 0
      = l.getD i 0 ^^^ ((p :: diffuseSpecAux p l).getD i 0) := by
  induction l with
  | nil => intro p i hi; simp at hi
  | cons x xs ih =>
    intro p i hi
    cases i with
    | zero => simp [diffuseSpecAux, Nat.xor_comm]
    | succ j =>
      simp only [diffuseSpecAux, List.getD_cons_succ]
      exact ih (p ^^^ x) j (by simpa using Nat.lt_of_succ_lt_succ hi)

theorem diffuse_length (l : List Nat) : (diffuse l).length = l.length := by
  rw [diffuse_eq_diffuseSpec, diffuseSpec, diffuseSpecAux_length]

/-- C1: for every byte buffer `X` (entries `< 256`) and keystream `S` of
equal length (entries `< 256`), `decrypt_pixels` exactly inverts
`encrypt_pixels` when both use the same keystream: reverse diffusion
followed by XOR undoes XOR followed by forward diffusion. -/
theorem claim_C1_cipher_roundtrip (X S : List Nat) (hlen : S.length = X.length)
    (hX : ∀ b ∈ X, b < 256) (hS : ∀ s ∈ S, s < 256) :
    cipherDecrypt (cipherEncrypt X S) S = X := by
  have hXu : toUint8 X = X := toUint8_eq_self X hX
  have hZ : ∀ x ∈ xorBytes X S, x < 256 := xorBytes_mem_lt X S hX hS
  have hD : ∀ x ∈ diffuseSpecAux 0 (xorBytes X S), x < 256 :=
    diffuseSpecAux_mem_lt 0 (xorBytes X S) (by omega) hZ
  rw [cipherEncrypt, cipherDecrypt, hXu, diffuse_eq_diffuseSpec,
    toUint8_eq_self _ (by simpa [diffuseSpec] using hD),
    undiffuse_eq_undiffuseSpec, undiffuseSpec_diffuseSpec]
  exact xorBytes_xorBytes X S hlen

theorem claim_C1_cipher_roundtrip_witness :
    cipherDecrypt (cipherEncrypt [10, 200, 7, 33] [255, 0, 1, 128])
      [255, 0, 1, 128] = [10, 200, 7, 33] :=
  claim_C1_cipher_roundtrip [10, 200, 7, 33] [255, 0, 1, 128]
    (by decide) (by decide) (by decide)

/-- C7: `encrypt_pixels` computes exactly the two stated passes — the
intermediate buffer is the elementwise XOR of the (uint8-cast) input with
the keystream, and the output satisfies `out[0] = intermediate[0]`,
`out[i] = intermediate[i] XOR out[i-1]` for `i ≥ 1` (the in-place loop
realises the recurrence on the already-diffused predecessor). -/
theorem claim_C7_encrypt_two_passes (X S : List Nat) :
    (cipherEncrypt X S).length = (xorBytes (toUint8 X) S).length ∧
    (cipherEncrypt X S).getD 0 0 = (xorBytes (toUint8 X) S).getD 0 0 ∧
    ∀ i, 1 ≤ i → i < (xorBytes (toUint8 X) S).length →
      (cipherEncrypt X S).getD i 0
        = (xorBytes (toUint8 X) S).getD i 0 ^^^ (cipherEncrypt X S).getD (i - 1) 0 := by
  have hE : cipherEncrypt X S = diffuseSpecAux 0 (xorBytes (toUint8 X) S) := by
    rw [cipherEncrypt, diffuse_eq_diffuseSpec, diffuseSpec]
  refine ⟨by rw [hE, diffuseSpecAux_length], ?_, ?_⟩
  · cases hI : xorBytes (toUint8 X) S with
    | nil => rw [hE, hI]; rfl
    | cons y ys =>
      rw [hE, hI]
      simp [diffuseSpecAux]
  · intro i h1 h2
    have := diffuseSpecAux_getD (xorBytes (toUint8 X) S) 0 i h2
    rw [hE]
    rw [this]
    congr 1
    cases i with
    | zero => omega
    | succ j => simp [hE]

theorem claim_C7_encrypt_two_passes_witness :
    (cipherEncrypt [3, 250, 7] [100, 2, 9]).getD 2 0
      = (xorBytes (toUint8 [3, 250, 7]) [100, 2, 9]).getD 2 0
          ^^^ (cipherEncrypt [3, 250, 7] [100, 2, 9]).getD 1 0 :=
  (claim_C7_encrypt_two_passes [3, 250, 7] [100, 2, 9]).2.2 2
    (by decide) (by decide)

/-! ### Pixel chunking (`PixelProcessor.chunk_pixels` / `unchunk_pixels`,
pixel_processor.py lines 25-89).

A raster image is its numpy shape together with the flat, row-major,
channel-last pixel bytes (what `np.array(image).flatten()` yields); numpy
`reshape` only ever rearranges this flat view, so flattening is the
projection onto `data`. -/

structure RasterImage where
  shape : List Nat
  data : List Nat
deriving DecidableEq

/-- The metadata dict recorded by `chunk_pixels`. -/
structure ChunkMeta where
  original_shape : List Nat
  original_size : Nat
  padding : Nat
  num_chunks : Nat
  chunk_size : Nat
deriving DecidableEq

/-- Worker for `toChunks`, structurally recursive on a fuel bounding the
number of list elements still to consume (each step consumes at least one
element when `csize > 0`). -/
def toChunksGo (csize : Nat) : Nat → List Nat → List (List Nat)
  | _, [] => []
  | 0, _ :: _ => []
  | fuel + 1, x :: xs =>
      (x :: xs).take csize :: toChunksGo csize fuel ((x :: xs).drop csize)

/-- `reshape(num_chunks, chunk_size)`: split a flat buffer into consecutive
rows of `csize` entries. -/
def toChunks (csize : Nat) (l : List Nat) : List (List Nat) :=
  if csize = 0 then [] else toChunksGo csize l.length l

/-- `PixelProcessor.chunk_pixels`: flatten, record shape and size, zero-pad
to a multiple of `chunk_size`, reshape into `num_chunks × chunk_size`, and
record the metadata dict. -/
def chunk_pixels (chunkSize : Nat) (img : RasterImage) :
    List (List Nat) × ChunkMeta :=
  let flat := img.data
  let remainder := flat.length % chunkSize
  let padding := if remainder ≠ 0 then chunkSize - remainder else 0
  let padded := flat ++ List.replicate padding 0
  let numChunks := padded.length / chunkSize
  (toChunks chunkSize padded,
   { original_shape := img.shape
     original_size := flat.length
     padding := padding
     num_chunks := numChunks
     chunk_size := chunkSize })

/-- `PixelProcessor.unchunk_pixels`: flatten the chunks, drop the padding
(truncate to `original_size`) when padding was added, and reshape to the
original shape.  (numpy's `reshape` would raise if the flat length did not
match the shape; the roundtrip theorem never hits that case.) -/
def unchunk_pixels (chunks : List (List Nat)) (meta : ChunkMeta) :
    RasterImage :=
  let flat := chunks.flatten
  let flat2 := if meta.padding > 0 then flat.take meta.original_size else flat
  { shape := meta.original_shape, data := flat2 }

theorem toChunksGo_flatten (csize : Nat) (hc : 0 < csize) :
    ∀ (fuel : Nat) (l : List Nat), l.length ≤ fuel →
    (toChunksGo csize fuel l).flatten = l := by
  intro fuel
  induction fuel with
  | zero =>
    intro l hl
    cases l with
    | nil => rfl
    | cons x xs => simp at hl
  | succ fuel ih =>
    intro l hl
    cases l with
    | nil => rfl
    | cons x xs =>
      rw [toChunksGo, List.flatten_cons, ih _ ?_, List.take_append_drop]
      simp only [List.length_drop, List.length_cons]
      simp only [List.length_cons] at hl
      omega

theorem toChunks_flatten (csize : Nat) (hc : 0 < csize) (l : List Nat) :
    (toChunks csize l).flatten = l := by
  rw [toChunks, if_neg (by omega)]
  exact toChunksGo_flatten csize hc l.length l le_rfl

/-- C3: `unchunk_pixels` exactly inverts `chunk_pixels` for every image:
chunking zero-pads the flat pixels to a multiple of `chunk_size` (so the
flattened chunk matrix length is a multiple of `chunk_size`), and
unchunking flattens, truncates to `original_size` and restores the
original shape and pixels exactly. -/
theorem claim_C3_chunk_roundtrip (chunkSize : Nat) (hc : 0 < chunkSize)
    (img : RasterImage) :
    unchunk_pixels (chunk_pixels chunkSize img).1 (chunk_pixels chunkSize img).2
        = img ∧
    ((chunk_pixels chunkSize img).1.flatten).length % chunkSize = 0 := by
  set len := img.data.length with hlen
  have hflat : ((chunk_pixels chunkSize img).1).flatten
      = img.data ++ List.replicate
          (if len % chunkSize ≠ 0 then chunkSize - len % chunkSize else 0) 0 := by
    simp only [chunk_pixels]
    exact toChunks_flatten chunkSize hc _
  constructor
  · by_cases hrem : len % chunkSize ≠ 0
    · have hpad : (chunk_pixels chunkSize img).2.padding
          = chunkSize - len % chunkSize := by simp [chunk_pixels, hrem]
      have hpadpos : 0 < chunkSize - len % chunkSize := by
        have := Nat.mod_lt len hc
        omega
      simp only [unchunk_pixels, hflat, hpad, if_pos hrem, hpadpos, if_pos]
      have hsize : (chunk_pixels chunkSize img).2.original_size = len := by
        simp [chunk_pixels]
      have hshape : (chunk_pixels chunkSize img).2.original_shape = img.shape := by
        simp [chunk_pixels]
      rw [hsize, hshape, hlen, List.take_left]
    · have hpad : (chunk_pixels chunkSize img).2.padding = 0 := by
        simp [chunk_pixels, hrem]
      push_neg at hrem
      have hshape : (chunk_pixels chunkSize img).2.original_shape = img.shape := by
        simp [chunk_pixels]
      simp only [unchunk_pixels, hflat, hpad, hshape, hrem]
      simp
  · rw [hflat]
    by_cases hrem : len % chunkSize ≠ 0
    · rw [if_pos hrem]
      have hr : len % chunkSize < chunkSize := Nat.mod_lt _ hc
      have hmul : len + (chunkSize - len % chunkSize)
          = chunkSize * (len / chunkSize + 1) := by
        rw [Nat.mul_succ]
        have h := Nat.div_add_mod len chunkSize
        omega
      simp only [List.length_append, List.length_replicate, hlen]
      rw [hmul, Nat.mul_mod_right]
    · push_neg at hrem
      simp [hrem]

theorem claim_C3_chunk_roundtrip_witness :
    unchunk_pixels
        (chunk_pixels 32 ⟨[2, 3], [9, 8, 7, 6, 5, 4]⟩).1
        (chunk_pixels 32 ⟨[2, 3], [9, 8, 7, 6, 5, 4]⟩).2
      = ⟨[2, 3], [9, 8, 7, 6, 5, 4]⟩ :=
  (claim_C3_chunk_roundtrip 32 (by decide) ⟨[2, 3], [9, 8, 7, 6, 5, 4]⟩).1

/-! ### SHA-256 (model of Python's `hashlib.sha256`), over byte lists,
with 32-bit words as naturals reduced modulo `2^32`. -/

/-- Truncate to a 32-bit word. -/
def w32 (x : Nat) : Nat := x % 4294967296

/-- 32-bit right rotation. -/
def rotr32 (n x : Nat) : Nat := w32 ((x >>> n) ||| (x <<< (32 - n)))

/-- Big-endian byte serialisation of `v` on `n` bytes
(Python `int.to_bytes(n, 'big')`, truncating). -/
def bytesBE (n v : Nat) : List Nat :=
  (List.range n).map (fun i => (v >>> (8 * (n - 1 - i))) % 256)

/-- Big-endian interpretation of a byte list
(Python `int.from_bytes(bs, 'big')`). -/
def natOfBytesBE (l : List Nat) : Nat := l.foldl (fun a b => a * 256 + b) 0

/-- The 64 SHA-256 round constants. -/
def shaK : List Nat :=
  [ 1116352408, 1899447441, 3049323471, 3921009573, 961987163, 1508970993,
   2453635748, 2870763221, 3624381080, 310598401, 607225278, 1426881987,
   1925078388, 2162078206, 2614888103, 3248222580, 3835390401, 4022224774,
   264347078, 604807628, 770255983, 1249150122, 1555081692, 1996064986,
   2554220882, 2821834349, 2952996808, 3210313671, 3336571891, 3584528711,
   113926993, 338241895, 666307205, 773529912, 1294757372, 1396182291,
   1695183700, 1986661051, 2177026350, 2456956037, 2730485921, 2820302411,
   3259730800, 3345764771, 3516065817, 3600352804, 4094571909, 275423344,
   430227734, 506948616, 659060556, 883997877, 958139571, 1322822218,
   1537002063, 1747873779, 1955562222, 2024104815, 2227730452, 2361852424,
   2428436474, 2756734187, 3204031479, 3329325298]

/-- The SHA-256 initial hash value. -/
def shaH0 : List Nat :=
  [ 1779033703, 3144134277, 1013904242, 2773480762, 1359893119, 2600822924,
   528734635, 1541459225]

/-- SHA-256 padding: `128`, zeros, then the 64-bit big-endian bit length,
to a multiple of 64 bytes. -/
def shaPad (msg : List Nat) : List Nat :=
  msg ++ [128] ++ List.replicate ((119 - msg.length % 64) % 64) 0
      ++ bytesBE 8 (8 * msg.length)

/-- Group 4 bytes big-endian into one 32-bit word each. -/
def wordsBE : List Nat → List Nat
  | a :: b :: c :: d :: rest =>
      ((a <<< 24) ||| (b <<< 16) ||| (c <<< 8) ||| d) :: wordsBE rest
  | _ => []

def shaCh (x y z : Nat) : Nat := (x &&& y) ^^^ ((x ^^^ 4294967295) &&& z)
def shaMaj (x y z : Nat) : Nat := (x &&& y) ^^^ (x &&& z) ^^^ (y &&& z)
def shaBigSigma0 (x : Nat) : Nat := rotr32 2 x ^^^ rotr32 13 x ^^^ rotr32 22 x
def shaBigSigma1 (x : Nat) : Nat := rotr32 6 x ^^^ rotr32 11 x ^^^ rotr32 25 x
def shaSmallSigma0 (x : Nat) : Nat := rotr32 7 x ^^^ rotr32 18 x ^^^ (x >>> 3)
def shaSmallSigma1 (x : Nat) : Nat := rotr32 17 x ^^^ rotr32 19 x ^^^ (x >>> 10)

/-- Extend the 16 message-schedule words by `k` further words. -/
def shaExtend (w : List Nat) : Nat → List Nat
  | 0 => w
  | k + 1 =>
      let v := shaExtend w k
      v ++ [w32 (shaSmallSigma1 (v.getD (v.length - 2) 0)
            + v.getD (v.length - 7) 0
            + shaSmallSigma0 (v.getD (v.length - 15) 0)
            + v.getD (v.length - 16) 0)]

/-- One SHA-256 round on the working state `[a,b,c,d,e,f,g,h]`. -/
def shaRound (st : List Nat) (kw : Nat × Nat) : List Nat :=
  match st with
  | [a, b, c, d, e, f, g, h] =>
      let t1 := w32 (h + shaBigSigma1 e + shaCh e f g + kw.1 + kw.2)
      let t2 := w32 (shaBigSigma0 a + shaMaj a b c)
      [w32 (t1 + t2), a, b, c, w32 (d + t1), e, f, g]
  | other => other

/-- Compress one 64-byte block into the running hash state. -/
def shaCompress (h : List Nat) (block : List Nat) : List Nat :=
  let w := shaExtend (wordsBE block) 48
  let st := (shaK.zip w).foldl shaRound h
  List.zipWith (fun x y => w32 (x + y)) h st

/-- SHA-256 digest (32 bytes) of a byte list. -/
def sha256 (msg : List Nat) : List Nat :=
  (((toChunks 64 (shaPad msg)).foldl shaCompress shaH0).map (bytesBE 4)).flatten

/-! ### Key derivation (`DCKPESEncryptor._generate_keys`, dckp_es.py lines
42-68, and `_get_shuffle_seed`, lines 109-111).  Filenames and timestamp
strings are modelled as their UTF-8 byte lists; `chaos_seed` uses the
exact-rational model of the float arithmetic. -/

/-- The derived key material: AES key bytes and chaos seed. -/
structure KeyMaterial where
  key : List Nat
  chaos_seed : ℚ
deriving DecidableEq

/-- `f"{filename}|{timestamp.isoformat()}".encode()`: the UTF-8 bytes of
the unique string (`|` is byte 124). -/
def uniqueString (filename timestamp : List Nat) : List Nat :=
  filename ++ [124] ++ timestamp

/-- `DCKPESEncryptor._generate_keys`: SHA-256 the unique string, take the
first 16 bytes as the AES key, read bytes 16..24 big-endian, reduce modulo
1 000 000, scale into `[0.1, 0.9)`. -/
def generate_keys (filename timestamp : List Nat) : KeyMaterial :=
  let hashBytes := sha256 (uniqueString filename timestamp)
  let aesKey := hashBytes.take 16
  let seedInt := natOfBytesBE ((hashBytes.drop 16).take 8)
  let cs : ℚ := ((seedInt % 1000000 : Nat) : ℚ) / 1000000
  { key := aesKey, chaos_seed := 0.1 + cs * 0.8 }

/-- `DCKPESEncryptor._get_shuffle_seed`: big-endian uint32 from the first
four key bytes. -/
def get_shuffle_seed (filename timestamp : List Nat) : Nat :=
  natOfBytesBE ((generate_keys filename timestamp).key.take 4)

/-- Key derivation exactly as §4.1 of the specification words it:
`hash = SHA-256(filename + "|" + isoTimestamp)`,
`symmetricKey = hash[0:16]`, `seedInt = bigEndianUint64(hash[16:24])`,
`chaosSeed = 0.1 + 0.8 * ((seedInt mod 1_000_000) / 1_000_000)`,
`shuffleSeedBase = bigEndianUint32(symmetricKey[0:4])`. -/
def generateKeysSpec (filename timestamp : List Nat) : List Nat × ℚ × Nat :=
  let hash := sha256 (filename ++ [124] ++ timestamp)
  let symmetricKey := hash.take 16
  let seedInt := natOfBytesBE ((hash.drop 16).take 8)
  let chaosSeed : ℚ := 0.1 + 0.8 * (((seedInt % 1000000 : Nat) : ℚ) / 1000000)
  let shuffleSeedBase := natOfBytesBE (symmetricKey.take 4)
  (symmetricKey, chaosSeed, shuffleSeedBase)

/-- C5: key derivation is exactly the pure function of
(filename, timestampString) stated in the spec — symmetric key
`hash[0:16]`, chaos seed `0.1 + 0.8 * ((bigEndianUint64(hash[16:24]) mod
1_000_000)/1_000_000)`, shuffle seed base `bigEndianUint32(key[0:4])` —
and two derivations from identical inputs agree. -/
theorem claim_C5_key_derivation (filename timestamp : List Nat) :
    ((generate_keys filename timestamp).key,
      (generate_keys filename timestamp).chaos_seed,
      get_shuffle_seed filename timestamp)
      = generateKeysSpec filename timestamp
    ∧ generate_keys filename timestamp = generate_keys filename timestamp
    ∧ get_shuffle_seed filename timestamp = get_shuffle_seed filename timestamp := by
  refine ⟨?_, rfl, rfl⟩
  simp [generate_keys, generateKeysSpec, get_shuffle_seed, uniqueString,
    mul_comm]

/-- C10 as stated is false: the derived chaos seed is not always strictly
greater than 0.1.  For filename `"f385859.pdf"` and timestamp string
`"2024-01-01T00:00:00"`, `bigEndianUint64(hash[16:24])` is divisible by
1 000 000, so the chaos seed is exactly 0.1. -/
theorem claim_C10_counterexample :
    ¬ ((1:ℚ)/10 < (generate_keys
        [102, 51, 56, 53, 56, 53, 57, 46, 112, 100, 102]
        [50, 48, 50, 52, 45, 48, 49, 45, 48, 49, 84, 48, 48, 58, 48,
         48, 58, 48, 48]).chaos_seed) := by
  have h : natOfBytesBE (((sha256 (uniqueString
      [102, 51, 56, 53, 56, 53, 57, 46, 112, 100, 102]
      [50, 48, 50, 52, 45, 48, 49, 45, 48, 49, 84, 48, 48, 58, 48,
       48, 58, 48, 48])).drop 16).take 8) % 1000000 = 0 := by decide
  simp only [generate_keys, h]
  norm_num

/-- C10 (amended): for every (filename, timestamp) pair the derived chaos
seed lies in the half-open interval `[0.1, 0.9)` — the lower bound is
attained exactly when `seedInt mod 1_000_000 = 0`, so the interval is not
open on the left. -/
theorem claim_C10_chaos_seed_range (filename timestamp : List Nat) :
    (1:ℚ)/10 ≤ (generate_keys filename timestamp).chaos_seed
    ∧ (generate_keys filename timestamp).chaos_seed < (9:ℚ)/10 := by
  simp only [generate_keys]
  set m := natOfBytesBE (((sha256 (uniqueString filename timestamp)).drop 16).take 8)
      % 1000000 with hm
  have hm1 : m < 1000000 := Nat.mod_lt _ (by norm_num)
  have hq0 : (0:ℚ) ≤ (m:ℚ) := Nat.cast_nonneg m
  have hq1 : (m:ℚ) < 1000000 := by exact_mod_cast hm1
  constructor
  · norm_num
    positivity
  · norm_num
    nlinarith

/-! ### Chaos keystream (`DCKPESEncryptor._logistic_map` /
`_generate_chaos_sequence`, dckp_es.py lines 70-107), in the
exact-rational model of the float arithmetic. -/

/-- One application of `x(n+1) = r * x(n) * (1 - x(n))` with `r = 3.99`
(`_logistic_map` with the default single iteration). -/
def logistic_map (x : ℚ) : ℚ := (3.99 : ℚ) * x * (1 - x)

/-- `iterations`-fold application of the logistic map
(`_logistic_map(x, iterations)`). -/
def logistic_iter : Nat → ℚ → ℚ
  | 0, x => x
  | n + 1, x => logistic_iter n (logistic_map x)

/-- Python `int()` on a rational: truncation toward zero. -/
def pyInt (q : ℚ) : Int := if 0 ≤ q then ⌊q⌋ else ⌈q⌉

/-- One emitted keystream byte: `int(x * 255) % 256` with Python's
non-negative `%`. -/
def emitByte (x : ℚ) : Nat := ((pyInt (x * 255)).emod 256).toNat

/-- The emission loop of `_generate_chaos_sequence`: iterate once, emit,
repeat. -/
def chaosStream : Nat → ℚ → List Nat
  | 0, _ => []
  | n + 1, x => emitByte (logistic_map x) :: chaosStream n (logistic_map x)

/-- `DCKPESEncryptor._generate_chaos_sequence`: discard 100 burn-in
iterations from the seed, then emit `length` bytes. -/
def generate_chaos_sequence (seed : ℚ) (length : Nat) : List Nat :=
  chaosStream length (logistic_iter 100 seed)

/-- The keystream generator as §4.2 of the spec words it: from seed x0,
discard 100 burn-in iterations, then for each requested byte iterate once
and emit `floor(x*255) mod 256`. -/
def chaosSpecStream : Nat → ℚ → List Nat
  | 0, _ => []
  | n + 1, x =>
      ((⌊logistic_map x * 255⌋).emod 256).toNat
        :: chaosSpecStream n (logistic_map x)

/-- §4.2's generator: burn-in then `length` emitted bytes. -/
def chaosSpecSequence (seed : ℚ) (length : Nat) : List Nat :=
  chaosSpecStream length (logistic_iter 100 seed)

theorem logistic_map_mem (x : ℚ) (h0 : 0 ≤ x) (h1 : x ≤ 1) :
    0 ≤ logistic_map x ∧ logistic_map x ≤ 1 := by
  constructor
  · have h2 : (0:ℚ) ≤ 1 - x := by linarith
    exact mul_nonneg (mul_nonneg (by norm_num) h0) h2
  · rw [logistic_map]
    nlinarith [sq_nonneg (x - 1/2)]

theorem logistic_iter_mem (n : Nat) (x : ℚ) (h0 : 0 ≤ x) (h1 : x ≤ 1) :
    0 ≤ logistic_iter n x ∧ logistic_iter n x ≤ 1 := by
  induction n generalizing x with
  | zero => exact ⟨h0, h1⟩
  | succ n ih =>
    have h := logistic_map_mem x h0 h1
    exact ih (logistic_map x) h.1 h.2

theorem chaosStream_eq_spec (n : Nat) (x : ℚ) (h0 : 0 ≤ x) (h1 : x ≤ 1) :
    chaosStream n x = chaosSpecStream n x := by
  induction n generalizing x with
  | zero => rfl
  | succ n ih =>
    have h := logistic_map_mem x h0 h1
    have hb : emitByte (logistic_map x)
        = ((⌊logistic_map x * 255⌋).emod 256).toNat := by
      rw [emitByte, pyInt, if_pos (mul_nonneg h.1 (by norm_num))]
    rw [chaosStream, chaosSpecStream, hb, ih (logistic_map x) h.1 h.2]

/-- C6: the keystream generator is the stated pure function of
(seed, length): after 100 burn-in iterations of the logistic map
`x ↦ 3.99·x·(1-x)` it emits `floor(x*255) mod 256` per byte (for seeds in
`[0,1]`, where Python's truncating `int()` agrees with `floor`), and two
calls with the same seed and length yield the same byte sequence. -/
theorem claim_C6_chaos_generator (seed : ℚ) (len : Nat)
    (h0 : 0 ≤ seed) (h1 : seed ≤ 1) :
    generate_chaos_sequence seed len = chaosSpecSequence seed len
    ∧ generate_chaos_sequence seed len = generate_chaos_sequence seed len := by
  refine ⟨?_, rfl⟩
  have h := logistic_iter_mem 100 seed h0 h1
  rw [generate_chaos_sequence, chaosSpecSequence,
    chaosStream_eq_spec len _ h.1 h.2]

theorem claim_C6_chaos_generator_witness :
    generate_chaos_sequence (1/2) 5 = chaosSpecSequence (1/2) 5
    ∧ generate_chaos_sequence (1/2) 5 = generate_chaos_sequence (1/2) 5 :=
  claim_C6_chaos_generator (1/2) 5 (by norm_num) (by norm_num)

/-! ### Seeded shuffle (`PixelProcessor.generate_shuffle_indices` /
`shuffle_chunks` / `unshuffle_chunks`, pixel_processor.py lines 91-143).

`np.random.RandomState(seed)` (for seeds below `2^32`) initialises an
MT19937 state via the classic `init_genrand` routine and `rng.shuffle`
performs an in-place Fisher-Yates pass drawing each position with masked
rejection sampling (`rk_interval`); both are modelled here.  The rejection
loop carries fuel; on exhaustion the model returns the maximal admissible
index, so every draw stays in range (none of the claims depends on which
in-range value is drawn). -/

/-- `init_genrand` recurrence
`mt[i] = (1812433253 * (mt[i-1] ^ (mt[i-1] >> 30)) + i) mod 2^32`. -/
def mtInitGo (prev i : Nat) : Nat → List Nat
  | 0 => []
  | fuel + 1 =>
      let cur := w32 (1812433253 * (prev ^^^ (prev >>> 30)) + i)
      cur :: mtInitGo cur (i + 1) fuel

/-- The 624-word MT19937 state seeded with `init_genrand(seed)`. -/
def mtInit (seed : Nat) : List Nat :=
  w32 seed :: mtInitGo (w32 seed) 1 623

/-- One step of the in-place MT19937 state update at position `i`. -/
def mtTwistStep (mt : List Nat) (i : Nat) : List Nat :=
  let y := (mt.getD i 0 &&& 2147483648) ||| (mt.getD ((i + 1) % 624) 0 &&& 2147483647)
  let v := mt.getD ((i + 397) % 624) 0 ^^^ (y >>> 1)
      ^^^ (if y % 2 = 1 then 2567483615 else 0)
  mt.set i v

/-- The in-place regeneration of the whole 624-word block. -/
def mtTwist (mt : List Nat) : List Nat :=
  (List.range 624).foldl mtTwistStep mt

/-- The MT19937 output tempering. -/
def mtTemper (x : Nat) : Nat :=
  let y := x ^^^ (x >>> 11)
  let y := w32 (y ^^^ ((y <<< 7) &&& 2636928640))
  let y := w32 (y ^^^ ((y <<< 15) &&& 4022730752))
  y ^^^ (y >>> 18)

/-- An MT19937 generator state: the 624 words and the read position. -/
structure MTState where
  mt : List Nat
  pos : Nat
deriving DecidableEq

/-- Fresh numpy `RandomState(seed)`: position 624 forces a regeneration on
the first draw. -/
def mtFromSeed (seed : Nat) : MTState := ⟨mtInit seed, 624⟩

/-- Draw one tempered 32-bit word (`rk_random`). -/
def mtNext (s : MTState) : Nat × MTState :=
  if s.pos ≥ 624 then
    let mt := mtTwist s.mt
    (mtTemper (mt.getD 0 0), ⟨mt, 1⟩)
  else
    (mtTemper (s.mt.getD s.pos 0), ⟨s.mt, s.pos + 1⟩)

/-- The all-ones mask covering `mx` (`rk_interval`'s or-cascade). -/
def maskFor (mx : Nat) : Nat :=
  let m := mx ||| (mx >>> 1)
  let m := m ||| (m >>> 2)
  let m := m ||| (m >>> 4)
  let m := m ||| (m >>> 8)
  let m := m ||| (m >>> 16)
  m ||| (m >>> 32)

/-- The rejection loop of `rk_interval`: draw, mask, retry while the value
exceeds `mx` (fueled; in-range fallback `mx` on exhaustion). -/
def rkIntervalGo (mx : Nat) : Nat → MTState → Nat × MTState
  | 0, s => (mx, s)
  | fuel + 1, s =>
      let (v, s') := mtNext s
      let v := v &&& maskFor mx
      if v ≤ mx then (v, s') else rkIntervalGo mx fuel s'

/-- `rk_interval(mx, state)`: a draw uniform on `[0, mx]`. -/
def rkInterval (mx : Nat) (s : MTState) : Nat × MTState :=
  if mx = 0 then (0, s) else rkIntervalGo mx 1000 s

/-- The body of numpy's Fisher-Yates `shuffle`: swap positions `i` and `j`
through a temporary (both values read before either write). -/
def swapList (l : List Nat) (i j : Nat) : List Nat :=
  (l.set i (l.getD j 0)).set j (l.getD i 0)

/-- One Fisher-Yates step: draw `j = rk_interval(i)` and swap. -/
def fyStep (st : List Nat × MTState) (i : Nat) : List Nat × MTState :=
  let (j, s') := rkInterval i st.2
  (swapList st.1 i j, s')

/-- numpy `shuffle` on a 1-D array:
`for i in reversed(range(1, n)): j = rk_interval(i); swap(arr[i], arr[j])`. -/
def fisherYates (s : MTState) (l : List Nat) : List Nat :=
  (((List.range' 1 (l.length - 1)).reverse).foldl fyStep (l, s)).1

/-- `PixelProcessor.generate_shuffle_indices`: shuffle `arange(num_chunks)`
with a fresh `RandomState(seed)`. -/
def generate_shuffle_indices (num_chunks seed : Nat) : List Nat :=
  fisherYates (mtFromSeed seed) (List.range num_chunks)

/-- `np.argsort`, modelled with a stable sort of the index range by entry
value (the only arrays argsorted here have pairwise-distinct entries, where
every sort agrees). -/
def argsort (l : List Nat) : List Nat :=
  List.insertionSort (fun i j => l.getD i 0 ≤ l.getD j 0) (List.range l.length)

/-- `PixelProcessor.shuffle_chunks`: generate the seeded permutation and
apply it by fancy indexing (`chunks[shuffle_indices]`). -/
def shuffle_chunks (chunks : List (List Nat)) (seed : Nat) :
    List (List Nat) × List Nat :=
  let idx := generate_shuffle_indices chunks.length seed
  (idx.map (fun i => chunks.getD i []), idx)

/-- `PixelProcessor.unshuffle_chunks`: apply the argsort-derived inverse
permutation (`shuffled[argsort(shuffle_indices)]`). -/
def unshuffle_chunks (shuffled : List (List Nat)) (idx : List Nat) :
    List (List Nat) :=
  (argsort idx).map (fun j => shuffled.getD j [])

theorem set_getD_self {α : Type} (l : List α) (i : Nat) (d : α)
    (h : i < l.length) : l.set i (l.getD i d) = l := by
  induction l generalizing i with
  | nil => simp at h
  | cons x xs ih =>
    cases i with
    | zero => rfl
    | succ j =>
      simp only [List.getD_cons_succ, List.set_cons_succ]
      exact congrArg _ (ih j (by simpa using Nat.lt_of_succ_lt_succ h))


/-- Exchanging the two distinguished elements of a two-point decomposition
is a permutation. -/
theorem perm_two_swap {α : Type} (A B C : List α) (x y : α) :
    List.Perm (A ++ (y :: (B ++ (x :: C)))) (A ++ (x :: (B ++ (y :: C)))) := by
  refine List.Perm.append_left A ?_
  have h1 : List.Perm (y :: (B ++ (x :: C))) (y :: (x :: (B ++ C))) :=
    List.Perm.cons y List.perm_middle
  have h2 : List.Perm (y :: (x :: (B ++ C))) (x :: (y :: (B ++ C))) :=
    List.Perm.swap x y (B ++ C)
  have h3 : List.Perm (x :: (y :: (B ++ C))) (x :: (B ++ (y :: C))) :=
    List.Perm.cons x List.perm_middle.symm
  exact (h1.trans h2).trans h3

/-- Every list splits around two chosen in-range positions. -/
theorem exists_two_split {α : Type} (l : List α) (i j : Nat) (hij : i < j)
    (hj : j < l.length) :
    ∃ A x B y C, l = A ++ (x :: (B ++ (y :: C)))
      ∧ A.length = i ∧ A.length + 1 + B.length = j := by
  have hi : i < l.length := Nat.lt_trans hij hj
  refine ⟨l.take i, l[i], (l.drop (i + 1)).take (j - i - 1), l[j],
    l.drop (j + 1), ?_, ?_, ?_⟩
  · conv_lhs => rw [← List.take_append_drop i l]
    congr 1
    rw [List.drop_eq_getElem_cons hi]
    congr 1
    conv_lhs => rw [← List.take_append_drop (j - i - 1) (l.drop (i + 1))]
    congr 1
    have hdd : (l.drop (i + 1)).drop (j - i - 1) = l.drop j := by
      rw [List.drop_drop]
      congr 1
      omega
    rw [hdd, List.drop_eq_getElem_cons hj]
  · rw [List.length_take]
    omega
  · rw [List.length_take, List.length_take, List.length_drop]
    omega

/-- Computing `swapList` on a two-point decomposition. -/
theorem swapList_decomp {A : List Nat} (B C : List Nat) (x y : Nat) :
    swapList (A ++ (x :: (B ++ (y :: C)))) A.length (A.length + 1 + B.length)
      = A ++ (y :: (B ++ (x :: C))) := by
  have hx : (A ++ (x :: (B ++ (y :: C)))).getD A.length 0 = x :=
    getD_append_len A x (B ++ (y :: C)) 0
  have hassoc : A ++ (x :: (B ++ (y :: C))) = (A ++ (x :: B)) ++ (y :: C) := by
    simp [List.append_assoc]
  have hlen : (A ++ (x :: B)).length = A.length + 1 + B.length := by
    simp
    omega
  have hy : (A ++ (x :: (B ++ (y :: C)))).getD (A.length + 1 + B.length) 0 = y := by
    rw [hassoc, ← hlen]
    exact getD_append_len (A ++ (x :: B)) y C 0
  rw [swapList, hx, hy]
  have hset1 : (A ++ (x :: (B ++ (y :: C)))).set A.length y
      = A ++ (y :: (B ++ (y :: C))) := set_append_len A x (B ++ (y :: C)) y
  rw [hset1]
  have hassoc2 : A ++ (y :: (B ++ (y :: C))) = (A ++ (y :: B)) ++ (y :: C) := by
    simp [List.append_assoc]
  have hlen2 : (A ++ (y :: B)).length = A.length + 1 + B.length := by
    simp
    omega
  rw [hassoc2, ← hlen2, set_append_len (A ++ (y :: B)) y C x]
  simp [List.append_assoc]

theorem swapList_perm_lt (l : List Nat) (i j : Nat) (hij : i < j)
    (hj : j < l.length) : List.Perm (swapList l i j) l := by
  obtain ⟨A, x, B, y, C, hd, hA, hAB⟩ := exists_two_split l i j hij hj
  subst hd
  rw [← hA, ← hAB, swapList_decomp B C x y]
  exact perm_two_swap A B C x y

/-- Swapping two in-range positions permutes the list. -/
theorem swapList_perm (l : List Nat) (i j : Nat) (hi : i < l.length)
    (hj : j < l.length) : List.Perm (swapList l i j) l := by
  rcases Nat.lt_trichotomy i j with hij | hij | hij
  · exact swapList_perm_lt l i j hij hj
  · subst hij
    rw [swapList, List.set_set, set_getD_self l i 0 hi]
  · have hcomm : swapList l i j = swapList l j i := by
      rw [swapList, swapList, List.set_comm _ _ _ (by omega)]
    rw [hcomm]
    exact swapList_perm_lt l j i hij hi

theorem rkIntervalGo_le (mx : Nat) :
    ∀ (fuel : Nat) (s : MTState), (rkIntervalGo mx fuel s).1 ≤ mx := by
  intro fuel
  induction fuel with
  | zero => intro s; exact le_rfl
  | succ fuel ih =>
    intro s
    rw [rkIntervalGo]
    by_cases h : (mtNext s).1 &&& maskFor mx ≤ mx
    · simp [h]
    · simpa [h] using ih (mtNext s).2

/-- Every `rk_interval` draw is in range `[0, mx]`. -/
theorem rkInterval_le (mx : Nat) (s : MTState) : (rkInterval mx s).1 ≤ mx := by
  rw [rkInterval]
  by_cases h : mx = 0
  · simp [h]
  · simpa [h] using rkIntervalGo_le mx 1000 s

/-- Folding Fisher-Yates steps over in-range positions permutes the
buffer. -/
theorem fyFold_perm (l₀ : List Nat) :
    ∀ (idxs : List Nat) (st : List Nat × MTState),
    List.Perm st.1 l₀ → (∀ i ∈ idxs, i < l₀.length) →
    List.Perm (idxs.foldl fyStep st).1 l₀ := by
  intro idxs
  induction idxs with
  | nil => intro st h _; exact h
  | cons i rest ih =>
    intro st hperm hmem
    rw [List.foldl_cons]
    refine ih _ ?_ (fun k hk => hmem k (List.mem_cons_of_mem _ hk))
    have hi : i < st.1.length := by
      rw [hperm.length_eq]
      exact hmem i (by simp)
    have hj : (rkInterval i st.2).1 < st.1.length :=
      lt_of_le_of_lt (rkInterval_le i st.2) hi
    exact (swapList_perm st.1 i _ hi hj).trans hperm

/-- numpy's seeded shuffle of `arange(n)` is a permutation of `range n`. -/
theorem generate_shuffle_indices_perm (n seed : Nat) :
    List.Perm (generate_shuffle_indices n seed) (List.range n) := by
  rw [generate_shuffle_indices, fisherYates]
  refine fyFold_perm (List.range n) _ _ (List.Perm.refl _) ?_
  intro i hi
  rw [List.mem_reverse, List.mem_range'] at hi
  simp only [List.length_range] at *
  omega

theorem getD_map_lt {α β : Type} (f : α → β) (l : List α) (i : Nat)
    (d : β) (d₀ : α) (h : i < l.length) :
    (l.map f).getD i d = f (l.getD i d₀) := by
  induction l generalizing i with
  | nil => simp at h
  | cons x xs ih =>
    cases i with
    | zero => rfl
    | succ j =>
      simp only [List.map_cons, List.getD_cons_succ]
      exact ih j (by simpa using Nat.lt_of_succ_lt_succ h)

theorem map_getD_range {α : Type} (l : List α) (d : α) :
    (List.range l.length).map (fun i => l.getD i d) = l := by
  induction l with
  | nil => rfl
  | cons x xs ih =>
    rw [List.length_cons, List.range_succ_eq_map, List.map_cons,
      List.map_map]
    exact congrArg _ ih

/-- Applying the argsorted order to the array itself yields the sorted
range: for a permutation `l` of `range n`, `l[argsort(l)[k]] = k`. -/
theorem argsort_keys (l : List Nat)
    (hp : List.Perm l (List.range l.length)) :
    (argsort l).map (fun j => l.getD j 0) = List.range l.length := by
  haveI : IsTotal Nat (fun i j => l.getD i 0 ≤ l.getD j 0) :=
    ⟨fun _ _ => le_total _ _⟩
  haveI : IsTrans Nat (fun i j => l.getD i 0 ≤ l.getD j 0) :=
    ⟨fun _ _ _ h1 h2 => le_trans h1 h2⟩
  have hsorted : List.Sorted (fun i j => l.getD i 0 ≤ l.getD j 0) (argsort l) :=
    List.sorted_insertionSort _ (List.range l.length)
  have hperm : List.Perm (argsort l) (List.range l.length) :=
    List.perm_insertionSort _ (List.range l.length)
  have hkeysorted : List.Sorted (· ≤ ·) ((argsort l).map (fun j => l.getD j 0)) := by
    rw [List.Sorted, List.pairwise_map]
    exact hsorted
  have hkeyperm : List.Perm ((argsort l).map (fun j => l.getD j 0))
      (List.range l.length) := by
    have h1 := hperm.map (fun j => l.getD j 0)
    rw [map_getD_range l 0] at h1
    exact h1.trans hp
  exact List.eq_of_perm_of_sorted hkeyperm hkeysorted (List.sorted_le_range _)

/-- C2: for every chunk array and every seed, unshuffling inverts
shuffling: the shuffle satisfies `shuffled[i] = C[perm[i]]` for the seeded
permutation `perm` of `[0, numChunks)`, and applying the argsort-derived
inverse restores `C` exactly. -/
theorem claim_C2_shuffle_roundtrip (C : List (List Nat)) (seed : Nat) :
    unshuffle_chunks (shuffle_chunks C seed).1 (shuffle_chunks C seed).2 = C
    ∧ List.Perm (shuffle_chunks C seed).2 (List.range C.length)
    ∧ ∀ i, i < C.length →
        (shuffle_chunks C seed).1.getD i []
          = C.getD ((shuffle_chunks C seed).2.getD i 0) [] := by
  have hperm : List.Perm (generate_shuffle_indices C.length seed)
      (List.range C.length) := generate_shuffle_indices_perm C.length seed
  have hlen : (generate_shuffle_indices C.length seed).length = C.length := by
    rw [hperm.length_eq, List.length_range]
  refine ⟨?_, hperm, ?_⟩
  · set idx := generate_shuffle_indices C.length seed with hidx
    have hidxlen : idx.length = C.length := hlen
    have hpermlen : List.Perm idx (List.range idx.length) := by
      rw [hidxlen]
      exact hperm
    have hentries : ∀ j ∈ argsort idx, j < idx.length := by
      intro j hj
      have := (List.perm_insertionSort
        (fun i j => idx.getD i 0 ≤ idx.getD j 0) (List.range idx.length)).mem_iff.mp hj
      rwa [List.mem_range] at this
    show (argsort idx).map
        (fun j => (idx.map (fun i => C.getD i [])).getD j []) = C
    have hstep1 : (argsort idx).map
        (fun j => (idx.map (fun i => C.getD i [])).getD j [])
        = (argsort idx).map (fun j => C.getD (idx.getD j 0) []) := by
      refine List.map_congr_left ?_
      intro j hj
      exact getD_map_lt (fun i => C.getD i []) idx j [] 0 (hentries j hj)
    rw [hstep1]
    have hstep2 : (argsort idx).map (fun j => C.getD (idx.getD j 0) [])
        = ((argsort idx).map (fun j => idx.getD j 0)).map (fun k => C.getD k []) := by
      rw [List.map_map]
      rfl
    rw [hstep2, argsort_keys idx hpermlen, hidxlen, map_getD_range]
  · intro i hi
    show (generate_shuffle_indices C.length seed |>.map
        (fun i => C.getD i [])).getD i [] = _
    exact getD_map_lt _ _ i [] 0 (by rw [hlen]; exact hi)

theorem claim_C2_shuffle_roundtrip_witness :
    (shuffle_chunks [[1, 2], [3, 4], [5, 6]] 42).1.getD 1 []
      = [[1, 2], [3, 4], [5, 6]].getD
          ((shuffle_chunks [[1, 2], [3, 4], [5, 6]] 42).2.getD 1 0) [] :=
  (claim_C2_shuffle_roundtrip [[1, 2], [3, 4], [5, 6]] 42).2.2 1 (by decide)

/-! ### Package codec (`create_encryption_package` /
`extract_encryption_package`, dckp_es.py lines 195-316).

The container is `prefix + "AARTHA" + version(u8) + metaLen(u32 BE)
+ metadata + payload`.  The metadata is serialised with `json.dumps` and
parsed back with `json.loads`; that library pair is modelled below by an
executable injective byte encoding with a matching, length-aware decoder
(`encodeMeta` / `decodeMeta`) — the claims depend only on the pair's
roundtrip behaviour and on decode failure for malformed bytes, not on
JSON's concrete surface syntax.  Numbers are encoded as JSON writes them:
ASCII decimal digits (here with an explicit `,` terminator). -/

/-- The per-page entry of the `pages` list in the package metadata. -/
structure PageMeta where
  img_shape : List Nat
  img_dtype : List Nat
  img_size : Nat
  shuffle_size : Nat
  metadata : ChunkMeta
deriving DecidableEq

/-- The top-level package metadata record. -/
structure PackageMeta where
  version : List Nat
  num_pages : Nat
  pages : List PageMeta
deriving DecidableEq

/-- One page handed to `create_encryption_package` (the source passes three
parallel lists and zips them; a single list of triples is the same data). -/
structure PageInput where
  imgShape : List Nat
  imgData : List Nat
  metadata : ChunkMeta
  shuffleIdx : List Nat
deriving DecidableEq

/-- The bytes of the dtype string `"uint8"`. -/
def uint8Dtype : List Nat := [117, 105, 110, 116, 56]

/-- The bytes of the version string `"1.0"`. -/
def versionString : List Nat := [49, 46, 48]

/-- Decimal digit bytes of `n`, most significant first (fueled; `fuel ≥ n`
suffices). -/
def decDigits : Nat → Nat → List Nat
  | 0, n => [48 + n % 10]
  | fuel + 1, n =>
      if n < 10 then [48 + n] else decDigits fuel (n / 10) ++ [48 + n % 10]

/-- Encode a number: decimal digits with a `,` terminator. -/
def encNat (n : Nat) : List Nat := decDigits n n ++ [44]

/-- Decode a digit run up to the `,` terminator, accumulating the value. -/
def decNatGo (acc : Nat) : List Nat → Option (Nat × List Nat)
  | [] => none
  | b :: bs =>
      if b = 44 then some (acc, bs)
      else if 48 ≤ b ∧ b ≤ 57 then decNatGo (acc * 10 + (b - 48)) bs
      else none

def decNat (bs : List Nat) : Option (Nat × List Nat) := decNatGo 0 bs

/-- Encode a length-prefixed raw byte string. -/
def encBytes (s : List Nat) : List Nat := encNat s.length ++ s

def decBytes (bs : List Nat) : Option (List Nat × List Nat) :=
  match decNat bs with
  | none => none
  | some (n, bs') =>
      if n ≤ bs'.length then some (bs'.take n, bs'.drop n) else none

/-- Encode a counted list. -/
def encList {α : Type} (enc : α → List Nat) (l : List α) : List Nat :=
  encNat l.length ++ (l.map enc).flatten

def decListGo {α : Type} (dec : List Nat → Option (α × List Nat)) :
    Nat → List Nat → Option (List α × List Nat)
  | 0, bs => some ([], bs)
  | k + 1, bs =>
      match dec bs with
      | none => none
      | some (x, bs') =>
          match decListGo dec k bs' with
          | none => none
          | some (xs, bs'') => some (x :: xs, bs'')

def decList {α : Type} (dec : List Nat → Option (α × List Nat))
    (bs : List Nat) : Option (List α × List Nat) :=
  match decNat bs with
  | none => none
  | some (k, bs') => decListGo dec k bs'

def encChunkMeta (m : ChunkMeta) : List Nat :=
  encList encNat m.original_shape ++ encNat m.original_size
    ++ encNat m.padding ++ encNat m.num_chunks ++ encNat m.chunk_size

def decChunkMeta (bs : List Nat) : Option (ChunkMeta × List Nat) :=
  match decList decNat bs with
  | none => none
  | some (shape, bs1) =>
  match decNat bs1 with
  | none => none
  | some (size, bs2) =>
  match decNat bs2 with
  | none => none
  | some (pad, bs3) =>
  match decNat bs3 with
  | none => none
  | some (nc, bs4) =>
  match decNat bs4 with
  | none => none
  | some (cs, bs5) => some (⟨shape, size, pad, nc, cs⟩, bs5)

def encPageMeta (p : PageMeta) : List Nat :=
  encList encNat p.img_shape ++ encBytes p.img_dtype ++ encNat p.img_size
    ++ encNat p.shuffle_size ++ encChunkMeta p.metadata

def decPageMeta (bs : List Nat) : Option (PageMeta × List Nat) :=
  match decList decNat bs with
  | none => none
  | some (shape, bs1) =>
  match decBytes bs1 with
  | none => none
  | some (dtype, bs2) =>
  match decNat bs2 with
  | none => none
  | some (isize, bs3) =>
  match decNat bs3 with
  | none => none
  | some (ssize, bs4) =>
  match decChunkMeta bs4 with
  | none => none
  | some (cm, bs5) => some (⟨shape, dtype, isize, ssize, cm⟩, bs5)

/-- The model of `json.dumps(package_meta).encode('utf-8')`. -/
def encodeMeta (pm : PackageMeta) : List Nat :=
  encBytes pm.version ++ encNat pm.num_pages ++ encList encPageMeta pm.pages

/-- The model of `json.loads` on the metadata slice: parses the whole
slice, failing on malformed or trailing bytes. -/
def decodeMeta (bs : List Nat) : Option PackageMeta :=
  match decBytes bs with
  | none => none
  | some (v, bs1) =>
  match decNat bs1 with
  | none => none
  | some (np', bs2) =>
  match decList decPageMeta bs2 with
  | none => none
  | some (pages, bs3) =>
      if bs3 = [] then some ⟨v, np', pages⟩ else none

theorem decNatGo_digits (fuel : Nat) :
    ∀ (n acc : Nat) (l : List Nat), n ≤ fuel →
    decNatGo acc (decDigits fuel n ++ l)
      = decNatGo (acc * 10 ^ (decDigits fuel n).length + n) l := by
  induction fuel with
  | zero =>
    intro n acc l hn
    have h0 : n = 0 := Nat.le_zero.mp hn
    subst h0
    simp [decDigits, decNatGo]
  | succ fuel ih =>
    intro n acc l hn
    by_cases h : n < 10
    · simp only [decDigits, if_pos h, List.cons_append, List.nil_append,
        decNatGo, List.length_cons, List.length_nil]
      have h44 : ¬ (48 + n = 44) := by omega
      have hrange : 48 ≤ 48 + n ∧ 48 + n ≤ 57 := by omega
      simp only [if_neg h44, if_pos hrange]
      norm_num
    · simp only [decDigits, if_neg h]
      rw [List.append_assoc, List.cons_append, List.nil_append]
      have hdiv : n / 10 ≤ fuel := by omega
      rw [ih (n / 10) acc ((48 + n % 10) :: l) hdiv]
      have h44 : ¬ (48 + n % 10 = 44) := by omega
      have hrange : 48 ≤ 48 + n % 10 ∧ 48 + n % 10 ≤ 57 := by omega
      simp only [decNatGo, if_neg h44, if_pos hrange, List.length_append,
        List.length_cons, List.length_nil]
      congr 1
      have hmod : 48 + n % 10 - 48 = n % 10 := by omega
      rw [hmod, pow_succ]
      have := Nat.div_add_mod n 10
      ring_nf
      omega

theorem decNat_encNat (n : Nat) (l : List Nat) :
    decNat (encNat n ++ l) = some (n, l) := by
  rw [decNat, encNat, List.append_assoc, List.cons_append, List.nil_append,
    decNatGo_digits n n 0 (44 :: l) le_rfl]
  simp [decNatGo]

theorem decBytes_encBytes (s l : List Nat) :
    decBytes (encBytes s ++ l) = some (s, l) := by
  rw [decBytes, encBytes, List.append_assoc, decNat_encNat]
  simp only [List.length_append, le_add_iff_nonneg_right, Nat.zero_le,
    if_pos, List.take_left, List.drop_left]

theorem decListGo_enc {α : Type} (dec : List Nat → Option (α × List Nat))
    (enc : α → List Nat)
    (l : List α) (h : ∀ x ∈ l, ∀ r, dec (enc x ++ r) = some (x, r)) :
    ∀ rest, decListGo dec l.length ((l.map enc).flatten ++ rest)
      = some (l, rest) := by
  induction l with
  | nil => intro rest; simp [decListGo]
  | cons x xs ih =>
    intro rest
    rw [List.length_cons, List.map_cons, List.flatten_cons, List.append_assoc]
    simp only [decListGo, h x (by simp),
      ih (fun y hy r => h y (List.mem_cons_of_mem _ hy) r) rest]

theorem decList_encList {α : Type} (dec : List Nat → Option (α × List Nat))
    (enc : α → List Nat)
    (l : List α) (h : ∀ x ∈ l, ∀ r, dec (enc x ++ r) = some (x, r))
    (rest : List Nat) :
    decList dec (encList enc l ++ rest) = some (l, rest) := by
  rw [decList, encList, List.append_assoc, decNat_encNat]
  exact decListGo_enc dec enc l h rest

theorem decChunkMeta_enc (m : ChunkMeta) (l : List Nat) :
    decChunkMeta (encChunkMeta m ++ l) = some (m, l) := by
  simp only [decChunkMeta, encChunkMeta, List.append_assoc,
    decList_encList decNat encNat m.original_shape
      (fun x _ r => decNat_encNat x r),
    decNat_encNat]

theorem decPageMeta_enc (p : PageMeta) (l : List Nat) :
    decPageMeta (encPageMeta p ++ l) = some (p, l) := by
  simp only [decPageMeta, encPageMeta, List.append_assoc,
    decList_encList decNat encNat p.img_shape
      (fun x _ r => decNat_encNat x r),
    decBytes_encBytes, decNat_encNat, decChunkMeta_enc]

theorem decodeMeta_enc (pm : PackageMeta) :
    decodeMeta (encodeMeta pm) = some pm := by
  rw [decodeMeta, encodeMeta]
  have h : encBytes pm.version ++ encNat pm.num_pages
      ++ encList encPageMeta pm.pages
      = encBytes pm.version ++ (encNat pm.num_pages
        ++ (encList encPageMeta pm.pages ++ [])) := by
    simp [List.append_assoc]
  rw [h]
  simp only [decBytes_encBytes, decNat_encNat,
    decList_encList decPageMeta encPageMeta pm.pages
      (fun x _ r => decPageMeta_enc x r)]
  simp

/-- Little-endian byte serialisation of `v` on `n` bytes (numpy
`tobytes()` on a little-endian platform). -/
def bytesLE (n v : Nat) : List Nat :=
  (List.range n).map (fun i => (v >>> (8 * i)) % 256)

/-- `shuffle_idx.astype(np.int32).tobytes()`: each index as four
little-endian bytes (`astype` wraps modulo `2^32`; the indices serialised
here are below `2^31`, where the signed and unsigned readings agree). -/
def encInt32s (l : List Nat) : List Nat :=
  (l.map (fun v => bytesLE 4 (v % 4294967296))).flatten

/-- `np.frombuffer(-, dtype=np.int32)` on a buffer whose length is a
multiple of four: groups of four little-endian bytes (returning the
unsigned reading, which matches the source's signed int32 values for all
arrays below `2^31` — the only ones this codec carries). -/
def decInt32s : List Nat → List Nat
  | a :: b :: c :: d :: rest =>
      (a + 256 * b + 65536 * c + 16777216 * d) :: decInt32s rest
  | _ => []

theorem encInt32s_length (l : List Nat) :
    (encInt32s l).length = 4 * l.length := by
  induction l with
  | nil => rfl
  | cons x xs ih =>
    simp only [encInt32s, List.map_cons, List.flatten_cons,
      List.length_append] at *
    rw [ih]
    simp [bytesLE]
    omega

theorem decInt32s_encInt32s (l : List Nat) (h : ∀ v ∈ l, v < 2147483648) :
    decInt32s (encInt32s l) = l := by
  induction l with
  | nil => rfl
  | cons x xs ih =>
    have hx : x < 2147483648 := h x (by simp)
    have hrest : decInt32s (encInt32s xs) = xs :=
      ih (fun v hv => h v (List.mem_cons_of_mem _ hv))
    simp only [encInt32s, List.map_cons, List.flatten_cons] at *
    have hr4 : List.range 4 = [0, 1, 2, 3] := by decide
    have hb : bytesLE 4 (x % 4294967296)
        = [(x % 4294967296) % 256, ((x % 4294967296) >>> 8) % 256,
           ((x % 4294967296) >>> 16) % 256, ((x % 4294967296) >>> 24) % 256] := by
      rw [bytesLE, hr4]
      simp only [List.map_cons, List.map_nil, Nat.mul_zero, Nat.mul_one,
        Nat.shiftRight_zero]
    have hhead : (x % 4294967296) % 256 + 256 * (((x % 4294967296) >>> 8) % 256)
        + 65536 * (((x % 4294967296) >>> 16) % 256)
        + 16777216 * (((x % 4294967296) >>> 24) % 256) = x := by
      have e8 : (x % 4294967296) >>> 8 = (x % 4294967296) / 256 := by
        rw [Nat.shiftRight_eq_div_pow]
      have e16 : (x % 4294967296) >>> 16 = (x % 4294967296) / 65536 := by
        rw [Nat.shiftRight_eq_div_pow]
      have e24 : (x % 4294967296) >>> 24 = (x % 4294967296) / 16777216 := by
        rw [Nat.shiftRight_eq_div_pow]
      rw [e8, e16, e24]
      omega
    rw [hb]
    simp only [List.cons_append, List.nil_append, List.append_nil, decInt32s]
    rw [hhead]
    simpa using hrest

/-- The 6-byte magic token `"AARTHA"`. -/
def MAGIC : List Nat := [65, 65, 82, 84, 72, 65]

/-- `bytes.find(b'AARTHA')`: index of the first occurrence of the magic
token, if any. -/
def findMagic : List Nat → Option Nat
  | [] => none
  | b :: rest =>
      if (b :: rest).take 6 = MAGIC then some 0
      else (findMagic rest).map (· + 1)

/-- The page-metadata entry `create_encryption_package` records for one
page. -/
def pageMetaOf (p : PageInput) : PageMeta :=
  { img_shape := p.imgShape
    img_dtype := uint8Dtype
    img_size := p.imgData.length
    shuffle_size := (encInt32s p.shuffleIdx).length
    metadata := p.metadata }

/-- The top-level metadata record of a package. -/
def packageMetaOf (pages : List PageInput) : PackageMeta :=
  { version := versionString
    num_pages := pages.length
    pages := pages.map pageMetaOf }

/-- `create_encryption_package`: optional prefix, magic, version byte 1,
big-endian u32 metadata length, metadata bytes, then per page in order the
image bytes followed by the int32 shuffle-index bytes. -/
def create_encryption_package (pages : List PageInput)
    (prefixBytes : List Nat) : List Nat :=
  let metaJson := encodeMeta (packageMetaOf pages)
  let binary := (pages.map (fun p => p.imgData ++ encInt32s p.shuffleIdx)).flatten
  prefixBytes ++ MAGIC ++ [1] ++ bytesBE 4 metaJson.length ++ metaJson ++ binary

/-- The errors `extract_encryption_package` raises. -/
inductive PackageError where
  | invalidFormat
  | unsupportedVersion (v : Nat)
  | corrupt
deriving DecidableEq

/-- One reconstructed page: its metadata entry, the decoded image bytes
(reshaped per `img_shape`) and the decoded shuffle indices. -/
structure PageOutput where
  meta : PageMeta
  image_data : List Nat
  shuffle_indices : List Nat
deriving DecidableEq

/-- The per-page reconstruction loop of `extract_encryption_package`:
slice `img_size` bytes and reinterpret/reshape them (numpy raises — here
`none` — if the data does not fill the declared shape, or on a dtype this
model does not carry), then slice `shuffle_size` bytes and reinterpret as
int32 (numpy raises only if the slice length is not a multiple of four). -/
def readPages : List PageMeta → List Nat → Option (List PageOutput)
  | [], _ => some []
  | pm :: rest, bin =>
      let raw := bin.take pm.img_size
      if raw.length = pm.img_shape.prod ∧ pm.img_dtype = uint8Dtype then
        let bin1 := bin.drop pm.img_size
        let rawShuffle := bin1.take pm.shuffle_size
        if rawShuffle.length % 4 = 0 then
          match readPages rest (bin1.drop pm.shuffle_size) with
          | none => none
          | some out =>
              some (⟨pm, raw, decInt32s rawShuffle⟩ :: out)
        else none
      else none

/-- `extract_encryption_package`: locate the magic anywhere, read and
check the version byte, read the metadata length and parse the metadata,
then slice the payload per page. -/
def extract_encryption_package (buf : List Nat) :
    Except PackageError (PackageMeta × List PageOutput) :=
  match findMagic buf with
  | none => .error .invalidFormat
  | some magicPos =>
      match buf.drop (magicPos + 6) with
      | [] => .error .corrupt
      | v :: rest1 =>
          if v ≠ 1 then .error (.unsupportedVersion v)
          else if (rest1.take 4).length ≠ 4 then .error .corrupt
          else
            let metaLen := natOfBytesBE (rest1.take 4)
            match decodeMeta ((rest1.drop 4).take metaLen) with
            | none => .error .corrupt
            | some pm =>
                match readPages pm.pages ((rest1.drop 4).drop metaLen) with
                | none => .error .corrupt
                | some pages => .ok (pm, pages)

theorem take_append_of_le {α : Type} (l t : List α) (n : Nat)
    (h : n ≤ l.length) : (l ++ t).take n = l.take n := by
  induction l generalizing n with
  | nil =>
    have : n = 0 := by simpa using h
    simp [this]
  | cons x xs ih =>
    cases n with
    | zero => rfl
    | succ m =>
      simp only [List.cons_append, List.take_succ_cons]
      exact congrArg _ (ih m (by simpa using Nat.succ_le_succ_iff.mp h))

/-- The first magic occurrence is stable under appending bytes, as long as
it fits inside the original buffer. -/
theorem findMagic_prefix_stable (A : List Nat) :
    ∀ (k : Nat) (t : List Nat), findMagic A = some k → k + 6 ≤ A.length →
    findMagic (A ++ t) = some k := by
  induction A with
  | nil => intro k t h _; simp [findMagic] at h
  | cons b rest ih =>
    intro k t h hlen
    by_cases hc : ((b :: rest).take 6 = MAGIC)
    · have hk : k = 0 := by
        rw [findMagic, if_pos hc] at h
        exact (Option.some.inj h).symm
      subst hk
      have h6 : 6 ≤ (b :: rest).length := by
        simpa using hlen
      have hc' : ((b :: rest) ++ t).take 6 = MAGIC := by
        rw [take_append_of_le _ t 6 h6]
        exact hc
      rw [List.cons_append, findMagic, ← List.cons_append, if_pos hc']
    · rw [findMagic, if_neg hc] at h
      obtain ⟨k', hk', hkk⟩ := Option.map_eq_some'.mp h
      have hlen' : k' + 6 ≤ rest.length := by
        simp only [List.length_cons] at hlen
        omega
      have hrec := ih k' t hk' hlen'
      have h6 : 6 ≤ (b :: rest).length := by
        simp only [List.length_cons]
        omega
      have hc' : ¬ ((b :: (rest ++ t)).take 6 = MAGIC) := by
        have hsplit : b :: (rest ++ t) = (b :: rest) ++ t := rfl
        rw [hsplit, take_append_of_le _ t 6 h6]
        exact hc
      rw [List.cons_append, findMagic, if_neg hc', hrec]
      simp [hkk]

theorem bytesBE_length (n v : Nat) : (bytesBE n v).length = n := by
  simp [bytesBE]

theorem natOfBytesBE_bytesBE4 (v : Nat) :
    natOfBytesBE (bytesBE 4 v) = v % 4294967296 := by
  have hr4 : List.range 4 = [0, 1, 2, 3] := by decide
  rw [bytesBE, hr4]
  simp only [List.map_cons, List.map_nil, natOfBytesBE, List.foldl_cons,
    List.foldl_nil]
  have e0 : v >>> (8 * (4 - 1 - 0)) = v / 16777216 := by
    rw [Nat.shiftRight_eq_div_pow]
  have e1 : v >>> (8 * (4 - 1 - 1)) = v / 65536 := by
    rw [Nat.shiftRight_eq_div_pow]
  have e2 : v >>> (8 * (4 - 1 - 2)) = v / 256 := by
    rw [Nat.shiftRight_eq_div_pow]
  have e3 : v >>> (8 * (4 - 1 - 3)) = v / 1 := by
    rw [Nat.shiftRight_eq_div_pow]
  rw [e0, e1, e2, e3]
  omega

/-- The expected reconstruction of one encoded page. -/
def pageOutputOf (p : PageInput) : PageOutput :=
  ⟨pageMetaOf p, p.imgData, p.shuffleIdx⟩

/-- Reading back the concatenated well-formed payload recovers every
page's exact bytes and indices. -/
theorem readPages_roundtrip (pages : List PageInput)
    (hwf : ∀ p ∈ pages, p.imgData.length = p.imgShape.prod
      ∧ ∀ v ∈ p.shuffleIdx, v < 2147483648) :
    readPages (pages.map pageMetaOf)
        ((pages.map (fun p => p.imgData ++ encInt32s p.shuffleIdx)).flatten)
      = some (pages.map pageOutputOf) := by
  induction pages with
  | nil => rfl
  | cons p rest ih =>
    have hp := hwf p (by simp)
    have hrest := ih (fun q hq => hwf q (List.mem_cons_of_mem _ hq))
    simp only [List.map_cons, List.flatten_cons, readPages]
    rw [List.append_assoc]
    have htake : (p.imgData ++ (encInt32s p.shuffleIdx
        ++ (rest.map (fun q => q.imgData ++ encInt32s q.shuffleIdx)).flatten)).take
          (pageMetaOf p).img_size = p.imgData := by
      show (p.imgData ++ _).take p.imgData.length = p.imgData
      exact List.take_left p.imgData _
    have hdrop : (p.imgData ++ (encInt32s p.shuffleIdx
        ++ (rest.map (fun q => q.imgData ++ encInt32s q.shuffleIdx)).flatten)).drop
          (pageMetaOf p).img_size
        = encInt32s p.shuffleIdx
          ++ (rest.map (fun q => q.imgData ++ encInt32s q.shuffleIdx)).flatten := by
      show (p.imgData ++ _).drop p.imgData.length = _
      exact List.drop_left p.imgData _
    rw [htake, hdrop]
    have hguard : p.imgData.length = (pageMetaOf p).img_shape.prod
        ∧ (pageMetaOf p).img_dtype = uint8Dtype := ⟨hp.1, rfl⟩
    rw [if_pos hguard]
    have htake2 : (encInt32s p.shuffleIdx
        ++ (rest.map (fun q => q.imgData ++ encInt32s q.shuffleIdx)).flatten).take
          (pageMetaOf p).shuffle_size = encInt32s p.shuffleIdx :=
      List.take_left _ _
    have hdrop2 : (encInt32s p.shuffleIdx
        ++ (rest.map (fun q => q.imgData ++ encInt32s q.shuffleIdx)).flatten).drop
          (pageMetaOf p).shuffle_size
        = (rest.map (fun q => q.imgData ++ encInt32s q.shuffleIdx)).flatten :=
      List.drop_left _ _
    rw [htake2, hdrop2]
    have hmod : (encInt32s p.shuffleIdx).length % 4 = 0 := by
      rw [encInt32s_length]
      omega
    rw [if_pos hmod, hrest]
    simp [pageOutputOf, decInt32s_encInt32s p.shuffleIdx hp.2]

/-- Decoding a freshly created package succeeds and recovers exactly the
encoded metadata, image bytes and shuffle indices, with the prefix bytes
excluded. -/
theorem extract_create (pages : List PageInput) (pref : List Nat)
    (hpref : findMagic (pref ++ MAGIC) = some pref.length)
    (hwf : ∀ p ∈ pages, p.imgData.length = p.imgShape.prod
      ∧ ∀ v ∈ p.shuffleIdx, v < 2147483648)
    (hmeta : (encodeMeta (packageMetaOf pages)).length < 4294967296) :
    extract_encryption_package (create_encryption_package pages pref)
      = .ok (packageMetaOf pages, pages.map pageOutputOf) := by
  set J := encodeMeta (packageMetaOf pages) with hJ
  set B := (pages.map (fun p => p.imgData ++ encInt32s p.shuffleIdx)).flatten
    with hB
  have hbuf : create_encryption_package pages pref
      = (pref ++ MAGIC) ++ (1 :: (bytesBE 4 J.length ++ (J ++ B))) := by
    rw [create_encryption_package]
    simp [List.append_assoc]
  have hfind : findMagic ((pref ++ MAGIC) ++ (1 :: (bytesBE 4 J.length ++ (J ++ B))))
      = some pref.length := by
    refine findMagic_prefix_stable (pref ++ MAGIC) pref.length _ hpref ?_
    simp [MAGIC]
  have hdrop6 : ((pref ++ MAGIC) ++ (1 :: (bytesBE 4 J.length ++ (J ++ B)))).drop
      (pref.length + 6) = 1 :: (bytesBE 4 J.length ++ (J ++ B)) := by
    have hlen : (pref ++ MAGIC).length = pref.length + 6 := by
      simp [MAGIC]
    rw [← hlen]
    exact List.drop_left _ _
  rw [hbuf, extract_encryption_package, hfind]
  dsimp only
  rw [hdrop6]
  have htk4 : (bytesBE 4 J.length ++ (J ++ B)).take 4 = bytesBE 4 J.length := by
    have := List.take_left (bytesBE 4 J.length) (J ++ B)
    rwa [bytesBE_length] at this
  have hdp4 : (bytesBE 4 J.length ++ (J ++ B)).drop 4 = J ++ B := by
    have := List.drop_left (bytesBE 4 J.length) (J ++ B)
    rwa [bytesBE_length] at this
  simp only [htk4, hdp4, bytesBE_length, natOfBytesBE_bytesBE4]
  rw [Nat.mod_eq_of_lt hmeta]
  rw [List.take_left, List.drop_left]
  rw [decodeMeta_enc]
  have hpages : (packageMetaOf pages).pages = pages.map pageMetaOf := rfl
  simp only [ne_eq, not_true_eq_false, if_false, hpages, hB,
    readPages_roundtrip pages hwf]

instance {ε α : Type} [DecidableEq ε] [DecidableEq α] :
    DecidableEq (Except ε α) := fun a b =>
  match a, b with
  | .error e, .error f =>
      if h : e = f then .isTrue (by rw [h])
      else .isFalse (fun hh => h (by injection hh))
  | .ok x, .ok y =>
      if h : x = y then .isTrue (by rw [h])
      else .isFalse (fun hh => h (by injection hh))
  | .error _, .ok _ => .isFalse (fun hh => by injection hh)
  | .ok _, .error _ => .isFalse (fun hh => by injection hh)

/-- C4 as stated is false: a prefix that does not itself contain the magic
token can still break extraction, because a proper suffix of the prefix
can combine with the real header to form an earlier straddling occurrence
of the magic.  With prefix `"AARTH"` (no `"AARTHA"` inside), the buffer
begins `"AARTH" + "AARTHA" + …`, `find` locates the magic at offset 0, the
"version" byte is `A` (65), and extraction fails with the unsupported-
version error instead of recovering the pages. -/
theorem claim_C4_counterexample :
    findMagic [65, 65, 82, 84, 72] = none
    ∧ extract_encryption_package
        (create_encryption_package [] [65, 65, 82, 84, 72])
        = .error (.unsupportedVersion 65) := by
  constructor
  · decide
  · decide

/-- C4 (amended): for every list of pages and every prefix `P` such that
the first occurrence of the magic token in `P ++ "AARTHA"` is at offset
`|P|` (in particular `P` contains no magic token and no proper suffix of
`P` completes one against the header), extraction of a created package
recovers per-page metadata, ciphertext bytes and permutation arrays
identical to those encoded, with the prefix bytes excluded from the
logical payload.  (Pages are well-formed: image bytes fill the declared
shape and the int32-serialised indices are below `2^31`; the encoded
metadata fits the u32 length field.) -/
theorem claim_C4_package_roundtrip (pages : List PageInput) (pref : List Nat)
    (hpref : findMagic (pref ++ MAGIC) = some pref.length)
    (hwf : ∀ p ∈ pages, p.imgData.length = p.imgShape.prod
      ∧ ∀ v ∈ p.shuffleIdx, v < 2147483648)
    (hmeta : (encodeMeta (packageMetaOf pages)).length < 4294967296) :
    extract_encryption_package (create_encryption_package pages pref)
      = .ok (packageMetaOf pages, pages.map pageOutputOf) :=
  extract_create pages pref hpref hwf hmeta

theorem claim_C4_package_roundtrip_witness :
    extract_encryption_package (create_encryption_package
        [⟨[1, 2], [9, 7], ⟨[1, 2], 2, 30, 1, 32⟩, [0]⟩] [3, 1, 4])
      = .ok (packageMetaOf [⟨[1, 2], [9, 7], ⟨[1, 2], 2, 30, 1, 32⟩, [0]⟩],
          [⟨[1, 2], [9, 7], ⟨[1, 2], 2, 30, 1, 32⟩, [0]⟩].map pageOutputOf) :=
  claim_C4_package_roundtrip
    [⟨[1, 2], [9, 7], ⟨[1, 2], 2, 30, 1, 32⟩, [0]⟩] [3, 1, 4]
    (by decide) (by decide) (by decide)

/-- C8: extraction raises `InvalidFormat` exactly when the buffer contains
no occurrence of the magic token; when the byte after the first magic
occurrence is a version other than 1 it raises `UnsupportedVersion` with
that version; and on a well-formed freshly created version-1 package it
raises neither (it succeeds). -/
theorem claim_C8_extract_errors :
    (∀ buf, extract_encryption_package buf = .error .invalidFormat
        ↔ findMagic buf = none)
    ∧ (∀ buf i v rest1, findMagic buf = some i →
        buf.drop (i + 6) = v :: rest1 → v ≠ 1 →
        extract_encryption_package buf = .error (.unsupportedVersion v))
    ∧ (∀ pages pref, findMagic (pref ++ MAGIC) = some pref.length →
        (∀ p ∈ pages, p.imgData.length = p.imgShape.prod
          ∧ ∀ v ∈ p.shuffleIdx, v < 2147483648) →
        (encodeMeta (packageMetaOf pages)).length < 4294967296 →
        ∃ result, extract_encryption_package
          (create_encryption_package pages pref) = .ok result) := by
  refine ⟨?_, ?_, ?_⟩
  · intro buf
    constructor
    · intro h
      cases hf : findMagic buf with
      | none => rfl
      | some i =>
        rw [extract_encryption_package, hf] at h
        dsimp only at h
        exfalso
        repeat' split at h
        all_goals simp_all
    · intro h
      rw [extract_encryption_package, h]
  · intro buf i v rest1 hf hd hv
    rw [extract_encryption_package, hf]
    dsimp only
    rw [hd]
    simp [hv]
  · intro pages pref h1 h2 h3
    exact ⟨_, extract_create pages pref h1 h2 h3⟩

theorem claim_C8_extract_errors_witness :
    extract_encryption_package [0, 1, 2] = .error .invalidFormat
    ∧ extract_encryption_package (MAGIC ++ 2 :: [0, 0, 0, 0])
        = .error (.unsupportedVersion 2)
    ∧ ∃ result, extract_encryption_package
        (create_encryption_package [] []) = .ok result :=
  ⟨(claim_C8_extract_errors.1 [0, 1, 2]).mpr (by decide),
    claim_C8_extract_errors.2.1 (MAGIC ++ 2 :: [0, 0, 0, 0]) 0 2 [0, 0, 0, 0]
      (by decide) (by decide) (by decide),
    claim_C8_extract_errors.2.2 [] [] (by decide) (by simp) (by decide)⟩

/-! ### Orchestrator (`EncryptionOrchestrator.encrypt_pdf` /
`decrypt_pdf`, encryption_orchestrator.py lines 40-272).

Rendering (PDF ⇄ images), previews, storage, ledger and email are external
collaborators; the core per-page pipeline is modelled: chunk → shuffle
with seed `shuffleSeedBase + pageIndex` → DCKP-ES encrypt → package
(prefix parametrised — the PNG wrapper is produced by the external
renderer), and the inverse chain on decrypt. -/

theorem chaosStream_length (n : Nat) (x : ℚ) :
    (chaosStream n x).length = n := by
  induction n generalizing x with
  | zero => rfl
  | succ n ih => simp [chaosStream, ih]

theorem generate_chaos_sequence_length (s : ℚ) (n : Nat) :
    (generate_chaos_sequence s n).length = n := by
  rw [generate_chaos_sequence, chaosStream_length]

theorem cipherEncrypt_length (X S : List Nat) (h : S.length = X.length) :
    (cipherEncrypt X S).length = X.length := by
  rw [cipherEncrypt, diffuse_length, xorBytes, List.length_zipWith, toUint8,
    List.length_map, h]
  omega

theorem toChunksGo_count (c : Nat) (hc : 0 < c) :
    ∀ (fuel : Nat) (l : List Nat), l.length ≤ fuel → c ∣ l.length →
    (toChunksGo c fuel l).length = l.length / c := by
  intro fuel
  induction fuel with
  | zero =>
    intro l hl _
    cases l with
    | nil => simp [toChunksGo]
    | cons x xs => simp at hl
  | succ fuel ih =>
    intro l hl hdvd
    cases l with
    | nil => simp [toChunksGo]
    | cons x xs =>
      rw [toChunksGo, List.length_cons]
      have hcle : c ≤ (x :: xs).length := by
        rcases hdvd with ⟨k, hk⟩
        rcases Nat.eq_zero_or_pos k with hk0 | hk0
        · simp [hk0] at hk
        · rw [List.length_cons] at hk ⊢
          calc c = c * 1 := by omega
          _ ≤ c * k := Nat.mul_le_mul_left c hk0
          _ = xs.length + 1 := hk.symm
      have hdrop : ((x :: xs).drop c).length = (x :: xs).length - c := by
        simp
      have hih := ih ((x :: xs).drop c)
        (by rw [hdrop]; simp only [List.length_cons] at hl ⊢; omega)
        (by rw [hdrop]; exact (Nat.dvd_sub' hdvd dvd_rfl))
      rw [hih, hdrop]
      rcases hdvd with ⟨k, hL⟩
      have hsub : c * k - c = c * (k - 1) := by
        cases k with
        | zero => simp
        | succ k' => simp [Nat.mul_succ]
      have h1 : ((x :: xs).length - c) / c = k - 1 := by
        rw [hL, hsub, Nat.mul_div_cancel_left _ hc]
      have h2 : (x :: xs).length / c = k := by
        rw [hL, Nat.mul_div_cancel_left _ hc]
      have hk1 : 1 ≤ k := by
        rcases Nat.eq_zero_or_pos k with h0 | h1
        · rw [h0, Nat.mul_zero] at hL
          simp at hL
        · exact h1
      rw [h1, h2]
      omega

theorem toChunksGo_rows (c : Nat) (hc : 0 < c) :
    ∀ (fuel : Nat) (l : List Nat), l.length ≤ fuel → c ∣ l.length →
    ∀ r ∈ toChunksGo c fuel l, r.length = c := by
  intro fuel
  induction fuel with
  | zero =>
    intro l hl _
    cases l with
    | nil => simp [toChunksGo]
    | cons x xs => simp at hl
  | succ fuel ih =>
    intro l hl hdvd
    cases l with
    | nil => simp [toChunksGo]
    | cons x xs =>
      rw [toChunksGo]
      intro r hr
      have hcle : c ≤ (x :: xs).length := by
        rcases hdvd with ⟨k, hk⟩
        rcases Nat.eq_zero_or_pos k with hk0 | hk0
        · simp [hk0] at hk
        · rw [List.length_cons] at hk ⊢
          calc c = c * 1 := by omega
          _ ≤ c * k := Nat.mul_le_mul_left c hk0
          _ = xs.length + 1 := hk.symm
      rcases List.mem_cons.mp hr with hr | hr
      · rw [hr, List.length_take]
        omega
      · have hdrop : ((x :: xs).drop c).length = (x :: xs).length - c := by
          simp
        exact ih ((x :: xs).drop c)
          (by rw [hdrop]; simp only [List.length_cons] at hl ⊢; omega)
          (by rw [hdrop]; exact (Nat.dvd_sub' hdvd dvd_rfl)) r hr

theorem flatten_length_const {c : Nat} (L : List (List Nat))
    (h : ∀ r ∈ L, r.length = c) : L.flatten.length = L.length * c := by
  induction L with
  | nil => simp
  | cons r rest ih =>
    rw [List.flatten_cons, List.length_append, List.length_cons,
      h r (by simp), ih (fun q hq => h q (List.mem_cons_of_mem _ hq))]
    ring

theorem padded_mod (cs len : Nat) (hc : 0 < cs) :
    (len + (if len % cs ≠ 0 then cs - len % cs else 0)) % cs = 0 := by
  by_cases h : len % cs ≠ 0
  · rw [if_pos h]
    have hr : len % cs < cs := Nat.mod_lt _ hc
    have hmul : len + (cs - len % cs) = cs * (len / cs + 1) := by
      rw [Nat.mul_succ]
      have hdm := Nat.div_add_mod len cs
      omega
    rw [hmul, Nat.mul_mod_right]
  · push_neg at h
    rw [if_neg (by simpa using h)]
    simpa using h

theorem chunk_pixels_count (cs : Nat) (hc : 0 < cs) (img : RasterImage) :
    (chunk_pixels cs img).1.length = (chunk_pixels cs img).2.num_chunks := by
  simp only [chunk_pixels, toChunks, if_neg (by omega : ¬ cs = 0)]
  exact toChunksGo_count cs hc _ _ le_rfl
    (Nat.dvd_of_mod_eq_zero (by
      simpa using padded_mod cs img.data.length hc))

theorem chunk_pixels_rows (cs : Nat) (hc : 0 < cs) (img : RasterImage) :
    ∀ r ∈ (chunk_pixels cs img).1, r.length = cs := by
  simp only [chunk_pixels, toChunks, if_neg (by omega : ¬ cs = 0)]
  exact toChunksGo_rows cs hc _ _ le_rfl
    (Nat.dvd_of_mod_eq_zero (by
      simpa using padded_mod cs img.data.length hc))

theorem getD_mem {α : Type} (l : List α) (i : Nat) (d : α)
    (h : i < l.length) : l.getD i d ∈ l := by
  rw [List.getD_eq_getElem l d h]
  exact List.getElem_mem h

theorem shuffle_chunks_length (chunks : List (List Nat)) (seed : Nat) :
    (shuffle_chunks chunks seed).1.length = chunks.length := by
  show (List.map _ (generate_shuffle_indices chunks.length seed)).length = _
  rw [List.length_map,
    (generate_shuffle_indices_perm chunks.length seed).length_eq,
    List.length_range]

theorem shuffle_chunks_rows (chunks : List (List Nat)) (seed c : Nat)
    (h : ∀ r ∈ chunks, r.length = c) :
    ∀ r ∈ (shuffle_chunks chunks seed).1, r.length = c := by
  intro r hr
  obtain ⟨i, hi, hri⟩ := List.mem_map.mp hr
  have hilt : i < chunks.length := by
    have := (generate_shuffle_indices_perm chunks.length seed).mem_iff.mp hi
    rwa [List.mem_range] at this
  exact hri ▸ h _ (getD_mem chunks i [] hilt)

theorem generate_shuffle_indices_length (n seed : Nat) :
    (generate_shuffle_indices n seed).length = n := by
  rw [(generate_shuffle_indices_perm n seed).length_eq, List.length_range]

/-- One page of `EncryptionOrchestrator.encrypt_pdf`'s loop: chunk, shuffle
with seed `base + pageIndex`, DCKP-ES-encrypt, and collect the stored
shuffle indices (the encrypted array keeps the chunk-matrix shape
`(num_chunks, chunk_size)` and is serialised as its flat bytes). -/
def orchEncryptPage (km : KeyMaterial) (cs base p : Nat)
    (img : RasterImage) : PageInput :=
  let cm := chunk_pixels cs img
  let sh := shuffle_chunks cm.1 (base + p)
  let flat := sh.1.flatten
  { imgShape := [cm.2.num_chunks, cs]
    imgData := cipherEncrypt flat (generate_chaos_sequence km.chaos_seed flat.length)
    metadata := cm.2
    shuffleIdx := sh.2 }

/-- The per-page loop of `encrypt_pdf`, carrying the page index. -/
def orchPages (km : KeyMaterial) (cs base : Nat) :
    Nat → List RasterImage → List PageInput
  | _, [] => []
  | p, img :: rest =>
      orchEncryptPage km cs base p img :: orchPages km cs base (p + 1) rest

/-- `EncryptionOrchestrator.encrypt_pdf` (core): derive key material,
process every rendered page, and package (the PNG wrapper prefix is
produced by the external renderer and passed through). -/
def encrypt_pdf (fname ts : List Nat) (imgs : List RasterImage) (cs : Nat)
    (pref : List Nat) : List Nat :=
  create_encryption_package
    (orchPages (generate_keys fname ts) cs (get_shuffle_seed fname ts) 0 imgs)
    pref

/-- One page of `decrypt_pdf`'s loop: DCKP-ES-decrypt, reshape to the
recorded `(num_chunks, chunk_size)` shape, unshuffle with the
argsort-derived inverse of the stored indices, and unchunk. -/
def decryptPage (km : KeyMaterial) (po : PageOutput) : RasterImage :=
  let decrypted := cipherDecrypt po.image_data
    (generate_chaos_sequence km.chaos_seed po.image_data.length)
  let chunks := toChunks (po.meta.img_shape.getD 1 0) decrypted
  unchunk_pixels (unshuffle_chunks chunks po.shuffle_indices)
    po.meta.metadata

/-- `EncryptionOrchestrator.decrypt_pdf` (core): extract the package,
re-derive key material from the parsed key parts, and invert every page. -/
def decrypt_pdf (buf : List Nat) (fname ts : List Nat) :
    Except PackageError (List RasterImage) :=
  match extract_encryption_package buf with
  | .error e => .error e
  | .ok (_, pages) => .ok (pages.map (decryptPage (generate_keys fname ts)))

/-- The metadata entry `encrypt_pdf` ends up recording for one page,
written in terms of the chunking metadata only. -/
def orchPageMeta (cs : Nat) (img : RasterImage) : PageMeta :=
  { img_shape := [(chunk_pixels cs img).2.num_chunks, cs]
    img_dtype := uint8Dtype
    img_size := (chunk_pixels cs img).2.num_chunks * cs
    shuffle_size := 4 * (chunk_pixels cs img).2.num_chunks
    metadata := (chunk_pixels cs img).2 }

/-- The package metadata `encrypt_pdf` ends up recording. -/
def orchMeta (cs : Nat) (imgs : List RasterImage) : PackageMeta :=
  { version := versionString
    num_pages := imgs.length
    pages := imgs.map (orchPageMeta cs) }

/-- The seeded permutations of §4.7: page `p` uses seed `base + p`. -/
def seedIdxList (base cs : Nat) : Nat → List RasterImage → List (List Nat)
  | _, [] => []
  | p, img :: rest =>
      generate_shuffle_indices (chunk_pixels cs img).2.num_chunks (base + p)
        :: seedIdxList base cs (p + 1) rest

theorem orchPage_imgData_length (km : KeyMaterial) (cs base p : Nat)
    (img : RasterImage) (hc : 0 < cs) :
    (orchEncryptPage km cs base p img).imgData.length
      = (chunk_pixels cs img).2.num_chunks * cs := by
  show (cipherEncrypt
      (shuffle_chunks (chunk_pixels cs img).1 (base + p)).1.flatten
      (generate_chaos_sequence km.chaos_seed
        (shuffle_chunks (chunk_pixels cs img).1 (base + p)).1.flatten.length)).length
    = _
  rw [cipherEncrypt_length _ _ (generate_chaos_sequence_length _ _)]
  rw [flatten_length_const _
    (shuffle_chunks_rows _ _ cs (chunk_pixels_rows cs hc img))]
  rw [shuffle_chunks_length, chunk_pixels_count cs hc img]

theorem orchPage_wf (km : KeyMaterial) (cs base p : Nat) (img : RasterImage)
    (hc : 0 < cs)
    (hnum : (chunk_pixels cs img).2.num_chunks < 2147483648) :
    (orchEncryptPage km cs base p img).imgData.length
        = (orchEncryptPage km cs base p img).imgShape.prod
    ∧ ∀ v ∈ (orchEncryptPage km cs base p img).shuffleIdx, v < 2147483648 := by
  constructor
  · rw [orchPage_imgData_length km cs base p img hc]
    show _ = ((chunk_pixels cs img).2.num_chunks * (cs * 1))
    ring
  · intro v hv
    have hv' : v ∈ (shuffle_chunks (chunk_pixels cs img).1 (base + p)).2 := hv
    have hperm := generate_shuffle_indices_perm
      (chunk_pixels cs img).1.length (base + p)
    have := hperm.mem_iff.mp hv'
    rw [List.mem_range, chunk_pixels_count cs hc img] at this
    omega

theorem pageMetaOf_orchPage (km : KeyMaterial) (cs base p : Nat)
    (img : RasterImage) (hc : 0 < cs) :
    pageMetaOf (orchEncryptPage km cs base p img) = orchPageMeta cs img := by
  have h1 := orchPage_imgData_length km cs base p img hc
  have h2 : ((encInt32s (orchEncryptPage km cs base p img).shuffleIdx)).length
      = 4 * (chunk_pixels cs img).2.num_chunks := by
    rw [encInt32s_length]
    show 4 * (shuffle_chunks (chunk_pixels cs img).1 (base + p)).2.length = _
    show 4 * (generate_shuffle_indices (chunk_pixels cs img).1.length (base + p)).length = _
    rw [generate_shuffle_indices_length, chunk_pixels_count cs hc img]
  rw [pageMetaOf, orchPageMeta]
  rw [h1, h2]
  rfl

theorem orchPages_map_meta (km : KeyMaterial) (cs base : Nat) (hc : 0 < cs)
    (imgs : List RasterImage) :
    ∀ p, (orchPages km cs base p imgs).map pageMetaOf
      = imgs.map (orchPageMeta cs) := by
  induction imgs with
  | nil => intro p; rfl
  | cons img rest ih =>
    intro p
    rw [orchPages, List.map_cons, List.map_cons,
      pageMetaOf_orchPage km cs base p img hc, ih (p + 1)]

theorem orchPages_length (km : KeyMaterial) (cs base : Nat)
    (imgs : List RasterImage) :
    ∀ p, (orchPages km cs base p imgs).length = imgs.length := by
  induction imgs with
  | nil => intro p; rfl
  | cons img rest ih =>
    intro p
    rw [orchPages, List.length_cons, List.length_cons, ih (p + 1)]

theorem packageMetaOf_orchPages (km : KeyMaterial) (cs base : Nat)
    (hc : 0 < cs) (imgs : List RasterImage) :
    packageMetaOf (orchPages km cs base 0 imgs) = orchMeta cs imgs := by
  rw [packageMetaOf, orchMeta]
  rw [orchPages_length km cs base imgs 0, orchPages_map_meta km cs base hc imgs 0]

theorem orchPages_shuffleIdx (km : KeyMaterial) (cs base : Nat) (hc : 0 < cs)
    (imgs : List RasterImage) :
    ∀ p, (orchPages km cs base p imgs).map (fun pi => pi.shuffleIdx)
      = seedIdxList base cs p imgs := by
  induction imgs with
  | nil => intro p; rfl
  | cons img rest ih =>
    intro p
    rw [orchPages, seedIdxList, List.map_cons, ih (p + 1)]
    have hhead : (orchEncryptPage km cs base p img).shuffleIdx
        = generate_shuffle_indices (chunk_pixels cs img).2.num_chunks (base + p) := by
      show (shuffle_chunks (chunk_pixels cs img).1 (base + p)).2 = _
      show generate_shuffle_indices (chunk_pixels cs img).1.length (base + p) = _
      rw [chunk_pixels_count cs hc img]
    rw [hhead]

theorem orchPages_wf (km : KeyMaterial) (cs base : Nat) (hc : 0 < cs)
    (imgs : List RasterImage)
    (hnum : ∀ img ∈ imgs, (chunk_pixels cs img).2.num_chunks < 2147483648) :
    ∀ p, ∀ pi ∈ orchPages km cs base p imgs,
      pi.imgData.length = pi.imgShape.prod
      ∧ ∀ v ∈ pi.shuffleIdx, v < 2147483648 := by
  induction imgs with
  | nil => intro p pi hpi; simp [orchPages] at hpi
  | cons img rest ih =>
    intro p pi hpi
    rw [orchPages] at hpi
    rcases List.mem_cons.mp hpi with hpi | hpi
    · exact hpi ▸ orchPage_wf km cs base p img hc (hnum img (by simp))
    · exact ih (fun q hq => hnum q (List.mem_cons_of_mem _ hq)) (p + 1) pi hpi

/-- C9: in the decrypt pipeline, each page `p` of a package produced by
`encrypt_pdf` is unshuffled using the permutation for seed
`shuffleSeedBase + p` — the same formula encrypt used: extraction recovers
at page `p` exactly `generate_shuffle_indices(numChunks_p,
shuffleSeedBase + p)` as regenerated from the key material, and
`decrypt_pdf` feeds those indices to `unshuffle_chunks`, which applies
their argsort-derived inverse. -/
theorem claim_C9_decrypt_unshuffle_seed (fname ts : List Nat)
    (imgs : List RasterImage) (cs : Nat) (pref : List Nat)
    (hc : 0 < cs)
    (hpref : findMagic (pref ++ MAGIC) = some pref.length)
    (hnum : ∀ img ∈ imgs, (chunk_pixels cs img).2.num_chunks < 2147483648)
    (hmeta : (encodeMeta (orchMeta cs imgs)).length < 4294967296) :
    extract_encryption_package (encrypt_pdf fname ts imgs cs pref)
      = .ok (orchMeta cs imgs,
          (orchPages (generate_keys fname ts) cs (get_shuffle_seed fname ts)
            0 imgs).map pageOutputOf)
    ∧ ((orchPages (generate_keys fname ts) cs (get_shuffle_seed fname ts)
          0 imgs).map pageOutputOf).map (fun po => po.shuffle_indices)
        = seedIdxList (get_shuffle_seed fname ts) cs 0 imgs
    ∧ decrypt_pdf (encrypt_pdf fname ts imgs cs pref) fname ts
        = .ok (((orchPages (generate_keys fname ts) cs
            (get_shuffle_seed fname ts) 0 imgs).map pageOutputOf).map
              (decryptPage (generate_keys fname ts))) := by
  have hwf := orchPages_wf (generate_keys fname ts) cs
    (get_shuffle_seed fname ts) hc imgs hnum 0
  have hmeta' : (encodeMeta (packageMetaOf
      (orchPages (generate_keys fname ts) cs (get_shuffle_seed fname ts)
        0 imgs))).length < 4294967296 := by
    rwa [packageMetaOf_orchPages _ _ _ hc]
  have hok := extract_create
    (orchPages (generate_keys fname ts) cs (get_shuffle_seed fname ts) 0 imgs)
    pref hpref hwf hmeta'
  rw [packageMetaOf_orchPages _ _ _ hc] at hok
  refine ⟨hok, ?_, ?_⟩
  · rw [List.map_map]
    have hproj : ((fun po => po.shuffle_indices) ∘ pageOutputOf)
        = fun (pi : PageInput) => pi.shuffleIdx := rfl
    rw [hproj, orchPages_shuffleIdx _ _ _ hc]
  · rw [decrypt_pdf, encrypt_pdf] at *
    rw [hok]

theorem claim_C9_decrypt_unshuffle_seed_witness :
    ((orchPages (generate_keys [97] [98]) 4 (get_shuffle_seed [97] [98])
        0 [⟨[1, 3], [5, 6, 7]⟩]).map pageOutputOf).map
          (fun po => po.shuffle_indices)
      = seedIdxList (get_shuffle_seed [97] [98]) 4 0 [⟨[1, 3], [5, 6, 7]⟩] :=
  (claim_C9_decrypt_unshuffle_seed [97] [98] [⟨[1, 3], [5, 6, 7]⟩] 4 []
    (by decide) (by decide) (by decide) (by decide)).2.1
